import Mathlib

/-!
# Verification of the Markdown → Confluence renderers

Shallow embedding of the two renderer modules of `confluence-mcp`:

* `markdown-to-storage` (storage-format / XHTML renderer): `escapeXml`,
  `isMarkdownFileLink`, `mdHrefToPageTitle`, `escapeCdata` and the four
  renderer overrides (`code`, `image`, `link`, `hr`);
* `markdown-to-adf` (ADF renderer): the full block/inline conversion
  pipeline, `buildMermaidExtensionNode` and `markdownToAdf`.

The Markdown lexer is the external `marked` library: both renderers consume
its token stream unchanged, so the embedding works over an explicit token
type `MToken` mirroring the `marked` token shapes the renderers inspect, and
theorems quantify over arbitrary token streams.  `randomUUID` (platform
code) is modelled by threading a counter `n : Nat` through the block
converters together with an ambient generator `g : Nat → String`: the `k`-th
generated identifier is `g (n₀ + k)`.
-/

namespace ConfluenceMcp

/-- Tokens of the `marked` lexer, restricted to the fields the renderers
read.  List items and table cells are represented by their `.tokens` field
(the only field the converters use).  The `other` constructor stands for any
token whose `type` is none of the enumerated ones, carrying its optional
`text` field (read by the ADF inline fallback). -/
inductive MToken where
  | heading (depth : Nat) (tokens : List MToken)
  | paragraph (tokens : List MToken)
  | code (text : String) (lang : Option String)
  | list (ordered : Bool) (start : Option Nat) (items : List (List MToken))
  | blockquote (tokens : List MToken)
  | table (header : List (List MToken)) (rows : List (List (List MToken)))
  | hr
  | html (text : String)
  | space
  | defTok
  | text (text : String) (tokens : Option (List MToken))
  | escape (text : String)
  | strong (tokens : List MToken)
  | em (tokens : List MToken)
  | del (tokens : List MToken)
  | codespan (text : String)
  | link (href : String) (title : Option String) (tokens : List MToken)
  | image (href : String) (title : Option String) (text : String)
  | br
  | other (ty : String) (text : Option String)
  deriving Repr

/-- JSON-ish attribute values used in ADF `attrs` maps. -/
inductive AVal where
  | str (s : String)
  | nat (n : Nat)
  | bool (b : Bool)
  | obj (fields : List (String × AVal))
  deriving Repr

/-- An ADF inline mark (`{type, attrs?}`); `attrs = none` models an absent
`attrs` field. -/
structure AdfMark where
  type : String
  attrs : Option (List (String × AVal))
  deriving Repr

/-- An ADF node.  Optional fields are `Option`s so that an absent field is
distinguishable from a present-but-empty one (`attrs` is a plain list:
the converters emit either no entries or concrete entries, and no claim
distinguishes `attrs:{}` from an absent `attrs`). -/
inductive AdfNode where
  | mk (type : String) (attrs : List (String × AVal))
       (content : Option (List AdfNode)) (text : Option String)
       (marks : Option (List AdfMark))
  deriving Repr

def AdfNode.type : AdfNode → String
  | .mk t _ _ _ _ => t

def AdfNode.attrs : AdfNode → List (String × AVal)
  | .mk _ a _ _ _ => a

def AdfNode.content : AdfNode → Option (List AdfNode)
  | .mk _ _ c _ _ => c

def AdfNode.text : AdfNode → Option String
  | .mk _ _ _ tx _ => tx

def AdfNode.marks : AdfNode → Option (List AdfMark)
  | .mk _ _ _ _ m => m

/-- The ADF document root: `{type:"doc", content, version:1}`. -/
structure AdfDocument where
  type : String
  content : List AdfNode
  version : Nat
  deriving Repr

/-- Truthiness of an optional JS string: `undefined`/`null` and `""` are
falsy, every other string is truthy. -/
def strTruthy : Option String → Bool
  | none => false
  | some s => !s.isEmpty

/-- `marks.length > 0 ? [...marks] : absent` — the renderers attach a
`marks` field only when at least one mark is active. -/
def optMarks (marks : List AdfMark) : Option (List AdfMark) :=
  if marks.isEmpty then none else some marks

/-- A `{type:"text", text}` leaf with `marks` attached only when nonempty. -/
def mkTextNode (s : String) (marks : List AdfMark) : AdfNode :=
  .mk "text" [] none (some s) (optMarks marks)

/-- An empty `{type:"paragraph", content:[]}` node. -/
def emptyParagraph : AdfNode := .mk "paragraph" [] (some []) none none

def strongMark : AdfMark := ⟨"strong", none⟩

def emMark : AdfMark := ⟨"em", none⟩

def strikeMark : AdfMark := ⟨"strike", none⟩

def codeMark : AdfMark := ⟨"code", none⟩

/-- The `link` mark built for an inline link token: `attrs.href` always,
`attrs.title` only when the title is truthy. -/
def linkMark (href : String) (title : Option String) : AdfMark :=
  ⟨"link", some (("href", AVal.str href) ::
      (if strTruthy title then [("title", AVal.str (title.getD ""))] else []))⟩

/-- `convertInlineTokens` of the ADF renderer: converts inline tokens to ADF
inline nodes, threading the accumulated mark list through nested formatting
tokens.  The final catch-all arm is the source's fallback that emits the
token's `text` field when it has one (of the block-only token kinds the model
carries a `text` field for `code` and `html`; the remaining block-only kinds
are never produced in inline position by the lexer and are dropped). -/
def convertInlineTokens : List MToken → List AdfMark → List AdfNode
  | [], _ => []
  | .text s _ :: rest, marks =>
      mkTextNode s marks :: convertInlineTokens rest marks
  | .escape s :: rest, marks =>
      mkTextNode s marks :: convertInlineTokens rest marks
  | .strong sub :: rest, marks =>
      convertInlineTokens sub (marks ++ [strongMark]) ++ convertInlineTokens rest marks
  | .em sub :: rest, marks =>
      convertInlineTokens sub (marks ++ [emMark]) ++ convertInlineTokens rest marks
  | .del sub :: rest, marks =>
      convertInlineTokens sub (marks ++ [strikeMark]) ++ convertInlineTokens rest marks
  | .codespan s :: rest, marks =>
      AdfNode.mk "text" [] none (some s) (some (marks ++ [codeMark]))
        :: convertInlineTokens rest marks
  | .link href title sub :: rest, marks =>
      convertInlineTokens sub (marks ++ [linkMark href title])
        ++ convertInlineTokens rest marks
  | .image href _ tx :: rest, marks =>
      AdfNode.mk "text" [] none (some (if tx.isEmpty then href else tx))
          (some (marks ++ [⟨"link", some [("href", AVal.str href)]⟩]))
        :: convertInlineTokens rest marks
  | .br :: rest, marks =>
      AdfNode.mk "hardBreak" [] none none none :: convertInlineTokens rest marks
  | .code s _ :: rest, marks =>
      mkTextNode s marks :: convertInlineTokens rest marks
  | .html s :: rest, marks =>
      mkTextNode s marks :: convertInlineTokens rest marks
  | .other _ (some s) :: rest, marks =>
      mkTextNode s marks :: convertInlineTokens rest marks
  | _ :: rest, marks => convertInlineTokens rest marks
termination_by toks _ => sizeOf toks

/-- `isImageOnlyParagraph`: after discarding whitespace-only `text` runs the
inline tokens are nonempty and all images. -/
def isWhitespaceText : MToken → Bool
  | .text s _ => s.trim.isEmpty
  | _ => false

def isImage : MToken → Bool
  | .image _ _ _ => true
  | _ => false

def isImageOnlyParagraph (tokens : List MToken) : Bool :=
  let nonSpaceTokens := tokens.filter (fun t => !isWhitespaceText t)
  !nonSpaceTokens.isEmpty && nonSpaceTokens.all isImage

/-- The `(href, text)` fields of an image token (the `filter`+`map` of the
source's image-only branch, fused into one `filterMap`). -/
def imageFields : MToken → Option (String × String)
  | .image href _ tx => some (href, tx)
  | _ => none

/-- `convertImageToMediaSingle`: a `mediaSingle` (layout `center`) wrapping
one external `media` node; `alt` present exactly when the alt text is
nonempty. -/
def convertImageToMediaSingle (href : String) (text : String) : AdfNode :=
  let mediaAttrs := [("type", AVal.str "external"), ("url", AVal.str href)] ++
      (if text.isEmpty then [] else [("alt", AVal.str text)])
  .mk "mediaSingle" [("layout", AVal.str "center")]
    (some [.mk "media" mediaAttrs none none none]) none none

/-- `convertParagraphNodes`: image-only paragraphs become `mediaSingle`
blocks, everything else a `paragraph` node. -/
def convertParagraphNodes (tokens : List MToken) : List AdfNode :=
  if isImageOnlyParagraph tokens then
    (tokens.filterMap imageFields).map (fun p => convertImageToMediaSingle p.1 p.2)
  else
    let content := convertInlineTokens tokens []
    [.mk "paragraph" [] (some (if content.length > 0 then content else [])) none none]

/-- `convertHeading`. -/
def convertHeading (depth : Nat) (tokens : List MToken) : AdfNode :=
  .mk "heading" [("level", AVal.nat depth)]
    (some (convertInlineTokens tokens [])) none none

/-- A table cell (`tableHeader` or `tableCell`) wrapping its inline content
in one paragraph. -/
def tableCellNode (ty : String) (cell : List MToken) : AdfNode :=
  .mk ty [] (some [.mk "paragraph" [] (some (convertInlineTokens cell [])) none none])
    none none

/-- `convertTable`. -/
def convertTable (header : List (List MToken)) (rows : List (List (List MToken))) :
    AdfNode :=
  let headerRows :=
    if header.length > 0 then
      [AdfNode.mk "tableRow" [] (some (header.map (tableCellNode "tableHeader"))) none none]
    else []
  let bodyRows := rows.map (fun row =>
    AdfNode.mk "tableRow" [] (some (row.map (tableCellNode "tableCell"))) none none)
  .mk "table" [("isNumberColumnEnabled", AVal.bool false), ("layout", AVal.str "default")]
    (some (headerRows ++ bodyRows)) none none

/-- Extension key for the "Mermaid Diagrams for Confluence" ecosystem app. -/
def MERMAID_EXTENSION_KEY : String :=
  "23392b90-4271-4239-98ca-a3e96c663cbb/63d4d207-ac2f-4273-865c-0240d37f044a/static/mermaid-diagram"

/-- `buildMermaidExtensionNode`: `randomUUID()` is modelled as `g n` where
`n` is the threaded call counter. -/
def buildMermaidExtensionNode (g : Nat → String) (n : Nat) : AdfNode :=
  let localId := g n
  .mk "extension"
    [("extensionType", AVal.str "com.atlassian.ecosystem"),
     ("extensionKey", AVal.str MERMAID_EXTENSION_KEY),
     ("parameters", AVal.obj [("localId", AVal.str localId)]),
     ("localId", AVal.str localId)] none none none

/-- `convertCodeBlock`: a `codeBlock` node (with `attrs.language` only when
the language tag is truthy), followed by a mermaid extension node exactly
when the language is `"mermaid"`; returns the advanced identifier counter. -/
def convertCodeBlock (g : Nat → String) (n : Nat) (text : String) (lang : Option String) :
    List AdfNode × Nat :=
  let node : AdfNode := .mk "codeBlock"
      (if strTruthy lang then [("language", AVal.str (lang.getD ""))] else [])
      (some [.mk "text" [] none (some text) none]) none none
  if lang == some "mermaid" then ([node, buildMermaidExtensionNode g n], n + 1)
  else ([node], n)

mutual

/-- `convertBlockTokens`: fold `convertBlockToken` over the stream,
concatenating the produced chunks. -/
def convertBlockTokens (g : Nat → String) (n : Nat) :
    List MToken → List AdfNode × Nat
  | [] => ([], n)
  | t :: rest =>
    match convertBlockToken g n t with
    | (some l, n1) =>
      match convertBlockTokens g n1 rest with
      | (rs, n2) => (l ++ rs, n2)
    | (none, n1) => convertBlockTokens g n1 rest
termination_by toks => (sizeOf toks, 0)

/-- `convertBlockToken`: one block token to zero or more ADF nodes (`none`
models the source's `null`). -/
def convertBlockToken (g : Nat → String) (n : Nat) :
    MToken → Option (List AdfNode) × Nat
  | .heading d toks => (some [convertHeading d toks], n)
  | .paragraph toks => (some (convertParagraphNodes toks), n)
  | .code s lang =>
      match convertCodeBlock g n s lang with
      | (l, n1) => (some l, n1)
  | .list ordered start items =>
      match convertList g n ordered start items with
      | (nd, n1) => (some [nd], n1)
  | .blockquote toks =>
      match convertBlockTokens g n toks with
      | (l, n1) => (some [AdfNode.mk "blockquote" [] (some l) none none], n1)
  | .table header rows => (some [convertTable header rows], n)
  | .hr => (some [AdfNode.mk "rule" [] none none none], n)
  | .html s =>
      (if !s.trim.isEmpty then
        some [AdfNode.mk "paragraph" [] (some [mkTextNode s []]) none none]
      else none, n)
  | _ => (none, n)
termination_by t => (sizeOf t, 0)

/-- `convertList`: a `bulletList`/`orderedList` node; `attrs.order` only for
an ordered list with a present start index different from 1. -/
def convertList (g : Nat → String) (n : Nat) (ordered : Bool) (start : Option Nat)
    (items : List (List MToken)) : AdfNode × Nat :=
  match convertListItems g n items with
  | (itemNodes, n1) =>
    (AdfNode.mk (if ordered then "orderedList" else "bulletList")
      (if ordered then
        match start with
        | some st => if st != 1 then [("order", AVal.nat st)] else []
        | none => []
      else [])
      (some itemNodes) none none, n1)
termination_by (sizeOf items, 1)

def convertListItems (g : Nat → String) (n : Nat) :
    List (List MToken) → List AdfNode × Nat
  | [] => ([], n)
  | item :: rest =>
    match convertListItem g n item with
    | (nd, n1) =>
      match convertListItems g n1 rest with
      | (nds, n2) => (nd :: nds, n2)
termination_by items => (sizeOf items, 0)

/-- `convertListItem`: convert the item's tokens and synthesize one empty
paragraph when the result is empty (ADF requires ≥ 1 block child). -/
def convertListItem (g : Nat → String) (n : Nat) (item : List MToken) :
    AdfNode × Nat :=
  match convertListItemToks g n item with
  | (content, n1) =>
    (AdfNode.mk "listItem" []
      (some (if content.isEmpty then [emptyParagraph] else content)) none none, n1)
termination_by (sizeOf item, 1)

/-- The per-token loop body of `convertListItem`: tight text wraps in a
paragraph (when nonempty), nested lists recurse, loose paragraphs pass
through, whitespace is skipped, anything else goes through
`convertBlockToken`. -/
def convertListItemToks (g : Nat → String) (n : Nat) :
    List MToken → List AdfNode × Nat
  | [] => ([], n)
  | .text _ (some sub) :: rest =>
      let inlineNodes := convertInlineTokens sub []
      let chunk :=
        if inlineNodes.length > 0 then
          [AdfNode.mk "paragraph" [] (some inlineNodes) none none]
        else []
      (match convertListItemToks g n rest with
      | (rs, n1) => (chunk ++ rs, n1))
  | .list ordered start items :: rest =>
      match convertList g n ordered start items with
      | (nd, n1) =>
        match convertListItemToks g n1 rest with
        | (rs, n2) => (nd :: rs, n2)
  | .paragraph toks :: rest =>
      (match convertListItemToks g n rest with
      | (rs, n1) => (convertParagraphNodes toks ++ rs, n1))
  | .space :: rest => convertListItemToks g n rest
  | t :: rest =>
      match convertBlockToken g n t with
      | (some l, n1) =>
        (match convertListItemToks g n1 rest with
        | (rs, n2) => (l ++ rs, n2))
      | (none, n1) => convertListItemToks g n1 rest
termination_by toks => (sizeOf toks, 0)

end

/-- `markdownToAdf` downstream of the external `marked` lexer: build the doc
root from the converted blocks, falling back to a single empty paragraph. -/
def markdownToAdfTokens (g : Nat → String) (tokens : List MToken) : AdfDocument :=
  let content := (convertBlockTokens g 0 tokens).1
  { type := "doc"
    content :=
      if content.length > 0 then content else [emptyParagraph]
    version := 1 }

/-! ## Document predicates used by the claims about `markdownToAdf` -/

/-- Look up a key in an `attrs` map. -/
def lookupA (key : String) : List (String × AVal) → Option AVal
  | [] => none
  | (k, v) :: rest => if k == key then some v else lookupA key rest

/-- Is this node an `extension` node? -/
def isExtB (nd : AdfNode) : Bool := nd.type == "extension"

/-- Is this node a `codeBlock` whose `attrs.language` is `"mermaid"`? -/
def isMermaidB (nd : AdfNode) : Bool :=
  nd.type == "codeBlock" &&
    (match lookupA "language" nd.attrs with
     | some (.str l) => l == "mermaid"
     | _ => false)

/-- Walking a sibling sequence from a previous node: each node is an
extension node exactly when its immediately preceding sibling is a mermaid
`codeBlock`, and the sequence does not end in a mermaid `codeBlock` (its
extension sibling must follow). -/
def chainOk : AdfNode → List AdfNode → Bool
  | prev, [] => !isMermaidB prev
  | prev, b :: rest => (isExtB b == isMermaidB prev) && chainOk b rest

/-- Extension/mermaid adjacency for one content sequence: no extension node
in first position, and `chainOk` from there on. -/
def seqOk : List AdfNode → Bool
  | [] => true
  | a :: rest => !isExtB a && chainOk a rest

/-- If this node is an extension node, its attrs are exactly the mermaid
extension attrs: `extensionType "com.atlassian.ecosystem"`, the fixed
extension key, and one identifier duplicated in `parameters.localId` and
`localId`. -/
def extAttrsOkB (nd : AdfNode) : Bool :=
  !(nd.type == "extension") ||
    (match nd.attrs with
     | [(k1, .str et), (k2, .str key), (k3, .obj [(k4, .str u1)]), (k5, .str u2)] =>
        k1 == "extensionType" && et == "com.atlassian.ecosystem" &&
        k2 == "extensionKey" && key == MERMAID_EXTENSION_KEY &&
        k3 == "parameters" && k4 == "localId" && k5 == "localId" && u1 == u2
     | _ => false)

/-- If this node is a `listItem`, it has a present, nonempty `content`. -/
def listItemOkB (nd : AdfNode) : Bool :=
  !(nd.type == "listItem") ||
    (match nd.content with
     | some l => !l.isEmpty
     | none => false)

mutual

/-- `p` holds at this node and every descendant, and `q` holds of this
node's content sequence and every descendant's. -/
def nodeCheck (p : AdfNode → Bool) (q : List AdfNode → Bool) : AdfNode → Bool
  | nd@(.mk _ _ c _ _) =>
    p nd && (match c with
             | some l => q l && listCheck p q l
             | none => true)
termination_by nd => sizeOf nd

def listCheck (p : AdfNode → Bool) (q : List AdfNode → Bool) : List AdfNode → Bool
  | [] => true
  | a :: rest => nodeCheck p q a && listCheck p q rest
termination_by l => sizeOf l

end

/-- `p` at every node of the document, `q` at every content sequence
(including the document root's). -/
def docCheck (p : AdfNode → Bool) (q : List AdfNode → Bool) (d : AdfDocument) : Bool :=
  q d.content && listCheck p q d.content

mutual

/-- The `attrs.localId` values of all extension nodes, in document order. -/
def extIdsNode : AdfNode → List String
  | .mk t a c _ _ =>
    (if t == "extension" then
       match lookupA "localId" a with
       | some (.str u) => [u]
       | _ => []
     else []) ++
    (match c with
     | some l => extIdsList l
     | none => [])
termination_by nd => sizeOf nd

def extIdsList : List AdfNode → List String
  | [] => []
  | a :: rest => extIdsNode a ++ extIdsList rest
termination_by l => sizeOf l

end

/-- All extension-node `localId`s of a document, in document order. -/
def extIdsDoc (d : AdfDocument) : List String := extIdsList d.content

/-- The per-node property maintained by the ADF converters: extension nodes
carry exactly the mermaid extension attrs, and `listItem` nodes have a
nonempty content. -/
def wfP (nd : AdfNode) : Bool := extAttrsOkB nd && listItemOkB nd

/-! ## Composition lemmas for the checkers -/

theorem chainOk_append {prev : AdfNode} {a b : List AdfNode}
    (ha : chainOk prev a = true) (hb : seqOk b = true) :
    chainOk prev (a ++ b) = true := by
  induction a generalizing prev with
  | nil =>
    simp only [List.nil_append]
    cases b with
    | nil => simpa [chainOk] using ha
    | cons x r =>
      simp only [chainOk, seqOk, Bool.and_eq_true, Bool.not_eq_true'] at *
      exact ⟨by simp [hb.1, ha], hb.2⟩
  | cons y ys ih =>
    simp only [chainOk, List.cons_append, Bool.and_eq_true] at ha ⊢
    exact ⟨ha.1, ih ha.2⟩

theorem seqOk_append {a b : List AdfNode}
    (ha : seqOk a = true) (hb : seqOk b = true) : seqOk (a ++ b) = true := by
  cases a with
  | nil => simpa using hb
  | cons x xs =>
    simp only [seqOk, List.cons_append, Bool.and_eq_true] at *
    exact ⟨ha.1, chainOk_append ha.2 hb⟩

theorem seqOk_cons_simple {a : AdfNode} {l : List AdfNode}
    (h1 : isExtB a = false) (h2 : isMermaidB a = false)
    (hl : seqOk l = true) : seqOk (a :: l) = true := by
  have : seqOk [a] = true := by simp [seqOk, chainOk, h1, h2]
  simpa using seqOk_append this hl

theorem seqOk_nil : seqOk [] = true := rfl

theorem listCheck_append {p q} {a b : List AdfNode} :
    listCheck p q (a ++ b) = (listCheck p q a && listCheck p q b) := by
  induction a with
  | nil => simp [listCheck]
  | cons x xs ih => simp [listCheck, ih, Bool.and_assoc]

theorem extIdsList_append {a b : List AdfNode} :
    extIdsList (a ++ b) = extIdsList a ++ extIdsList b := by
  induction a with
  | nil => simp [extIdsList]
  | cons x xs ih => simp [extIdsList, ih]

/-! ## Facts about leaf nodes built by the converters -/

theorem isExtB_mk_false {t : String} {attrs c tx mks}
    (h : (t == "extension") = false) :
    isExtB (.mk t attrs c tx mks) = false := by
  simp [isExtB, AdfNode.type, h]

theorem isMermaidB_mk_false {t : String} {attrs c tx mks}
    (h : (t == "codeBlock") = false) :
    isMermaidB (.mk t attrs c tx mks) = false := by
  simp [isMermaidB, AdfNode.type, h]

theorem nodeCheck_simple {t : String} {attrs tx mks}
    (h1 : (t == "extension") = false) (h2 : (t == "listItem") = false) :
    nodeCheck wfP seqOk (.mk t attrs none tx mks) = true := by
  simp [nodeCheck, wfP, extAttrsOkB, listItemOkB, AdfNode.type, AdfNode.attrs,
    AdfNode.content, h1, h2]

theorem extIdsNode_simple {t : String} {attrs tx mks}
    (h : (t == "extension") = false) :
    extIdsNode (.mk t attrs none tx mks) = [] := by
  simp [extIdsNode, h]

/-! ## Invariants of the inline converter -/

theorem convertInlineTokens_wf (toks : List MToken) (marks : List AdfMark) :
    seqOk (convertInlineTokens toks marks) = true ∧
    listCheck wfP seqOk (convertInlineTokens toks marks) = true ∧
    extIdsList (convertInlineTokens toks marks) = [] := by
  induction toks, marks using convertInlineTokens.induct <;>
    simp_all [convertInlineTokens, mkTextNode, listCheck, extIdsList,
      seqOk_nil, seqOk_cons_simple, seqOk_append, listCheck_append,
      extIdsList_append, isExtB_mk_false, isMermaidB_mk_false,
      nodeCheck_simple, extIdsNode_simple]

/-! ## The converter output invariant -/

/-- Invariant of a sequence-producing block-converter result relative to the
start counter `n`: the counter only advances, the extension `localId`s
collected from the output are exactly the freshly generated identifiers
`g n, g (n+1), …` in order, and the output sequence, all nested sequences,
and all nodes are well formed. -/
def outSeq (g : Nat → String) (n : Nat) (r : List AdfNode × Nat) : Prop :=
  n ≤ r.2 ∧ extIdsList r.1 = (List.range' n (r.2 - n)).map g ∧
    seqOk r.1 = true ∧ listCheck wfP seqOk r.1 = true

/-- `outSeq` through `convertBlockToken`'s optional result (`none` behaves
as the empty chunk). -/
def outOpt (g : Nat → String) (n : Nat) (r : Option (List AdfNode) × Nat) : Prop :=
  outSeq g n (r.1.getD [], r.2)

/-- `outSeq` for converters returning a single node. -/
def outNode (g : Nat → String) (n : Nat) (r : AdfNode × Nat) : Prop :=
  n ≤ r.2 ∧ extIdsNode r.1 = (List.range' n (r.2 - n)).map g ∧
    nodeCheck wfP seqOk r.1 = true ∧ isExtB r.1 = false ∧ isMermaidB r.1 = false

theorem outSeq_nil {g : Nat → String} {n : Nat} : outSeq g n ([], n) := by
  refine ⟨Nat.le_refl n, ?_, ?_, ?_⟩ <;>
    simp [extIdsList, Nat.sub_self, seqOk, listCheck]

theorem outSeq_pure {g : Nat → String} {n : Nat} {l : List AdfNode}
    (h1 : seqOk l = true) (h2 : listCheck wfP seqOk l = true)
    (h3 : extIdsList l = []) : outSeq g n (l, n) := by
  refine ⟨Nat.le_refl n, ?_, h1, h2⟩
  simp [h3, Nat.sub_self]

theorem outSeq_seq {g : Nat → String} {n n1 n2 : Nat} {a b : List AdfNode}
    (ha : outSeq g n (a, n1)) (hb : outSeq g n1 (b, n2)) :
    outSeq g n (a ++ b, n2) := by
  obtain ⟨hle1, hid1, hs1, hc1⟩ := ha
  obtain ⟨hle2, hid2, hs2, hc2⟩ := hb
  dsimp only at hle1 hid1 hs1 hc1 hle2 hid2 hs2 hc2
  refine ⟨Nat.le_trans hle1 hle2, ?_, seqOk_append hs1 hs2, ?_⟩
  · dsimp only
    rw [extIdsList_append, hid1, hid2, ← List.map_append]
    have e1 : List.range' n1 (n2 - n1) =
        List.range' (n + (n1 - n)) (n2 - (n + (n1 - n))) := by
      rw [show n + (n1 - n) = n1 by omega]
    rw [e1, List.range'_append_1, show n2 - (n + (n1 - n)) + (n1 - n) = n2 - n by omega]
  · dsimp only
    rw [listCheck_append, hc1, hc2]
    rfl

theorem outSeq_single {g : Nat → String} {n n' : Nat} {nd : AdfNode}
    (h : outNode g n (nd, n')) : outSeq g n ([nd], n') := by
  obtain ⟨hle, hid, hnc, hext, hmer⟩ := h
  dsimp only at hle hid hnc hext hmer
  refine ⟨hle, ?_, seqOk_cons_simple hext hmer rfl, ?_⟩
  · simpa [extIdsList] using hid
  · simp [listCheck, hnc]

/-- Wrap a well-formed sequence into a container node (any type other than
`extension`, `listItem` and `codeBlock`). -/
theorem outNode_container {g : Nat → String} {n n' : Nat} {t : String}
    {attrs tx mks} {l : List AdfNode}
    (h1 : (t == "extension") = false) (h2 : (t == "listItem") = false)
    (h3 : (t == "codeBlock") = false)
    (h : outSeq g n (l, n')) :
    outNode g n (.mk t attrs (some l) tx mks, n') := by
  obtain ⟨hle, hid, hs, hc⟩ := h
  refine ⟨hle, ?_, ?_, isExtB_mk_false h1, isMermaidB_mk_false h3⟩
  · simpa [extIdsNode, h1] using hid
  · simp [nodeCheck, wfP, extAttrsOkB, listItemOkB, AdfNode.type, AdfNode.content,
      h1, h2, hs, hc]

/-- A single content-free node of any type other than `extension`,
`listItem` and `codeBlock` is a well-formed pure chunk. -/
theorem outSeq_simple_single {g : Nat → String} {n : Nat} {t : String}
    {attrs tx mks}
    (h1 : (t == "extension") = false) (h2 : (t == "listItem") = false)
    (h3 : (t == "codeBlock") = false) :
    outSeq g n ([AdfNode.mk t attrs none tx mks], n) :=
  outSeq_pure
    (seqOk_cons_simple (isExtB_mk_false h1) (isMermaidB_mk_false h3) rfl)
    (by simp [listCheck, nodeCheck_simple h1 h2])
    (by simp [extIdsList, extIdsNode_simple h1])

/-- A single container node over pure well-formed content is a pure chunk. -/
theorem outSeq_inlineContainer {g : Nat → String} {n : Nat} {t : String}
    {attrs tx mks} {l : List AdfNode}
    (h1 : (t == "extension") = false) (h2 : (t == "listItem") = false)
    (h3 : (t == "codeBlock") = false)
    (hs : seqOk l = true) (hc : listCheck wfP seqOk l = true)
    (hi : extIdsList l = []) :
    outSeq g n ([AdfNode.mk t attrs (some l) tx mks], n) :=
  outSeq_single (outNode_container h1 h2 h3 (outSeq_pure hs hc hi))

/-! ## Well-formedness of the pure node builders -/

/-- The four node facts that make a node usable anywhere in a sequence. -/
def NodeFacts (nd : AdfNode) : Prop :=
  isExtB nd = false ∧ isMermaidB nd = false ∧
    nodeCheck wfP seqOk nd = true ∧ extIdsNode nd = []

theorem node_simple_facts {t : String} {attrs tx mks}
    (h1 : (t == "extension") = false) (h2 : (t == "listItem") = false)
    (h3 : (t == "codeBlock") = false) :
    NodeFacts (.mk t attrs none tx mks) :=
  ⟨isExtB_mk_false h1, isMermaidB_mk_false h3, nodeCheck_simple h1 h2,
    extIdsNode_simple h1⟩

theorem node_container_facts {t : String} {attrs tx mks} {l : List AdfNode}
    (h1 : (t == "extension") = false) (h2 : (t == "listItem") = false)
    (h3 : (t == "codeBlock") = false)
    (hs : seqOk l = true) (hc : listCheck wfP seqOk l = true)
    (hi : extIdsList l = []) :
    NodeFacts (.mk t attrs (some l) tx mks) := by
  refine ⟨isExtB_mk_false h1, isMermaidB_mk_false h3, ?_, ?_⟩
  · simp [nodeCheck, wfP, extAttrsOkB, listItemOkB, AdfNode.type, AdfNode.content,
      h1, h2, hs, hc]
  · simp [extIdsNode, h1, hi]

/-- A list of nodes that each satisfy `NodeFacts` forms a pure well-formed
sequence. -/
theorem wf_nodes_list {l : List AdfNode} (h : ∀ nd ∈ l, NodeFacts nd) :
    seqOk l = true ∧ listCheck wfP seqOk l = true ∧ extIdsList l = [] := by
  induction l with
  | nil => exact ⟨by simp [seqOk], by simp [listCheck], by simp [extIdsList]⟩
  | cons x xs ih =>
    obtain ⟨h1, h2, h3, h4⟩ := h x (by simp)
    obtain ⟨i1, i2, i3⟩ := ih (fun nd hnd => h nd (by simp [hnd]))
    exact ⟨seqOk_cons_simple h1 h2 i1, by simp [listCheck, h3, i2],
      by simp [extIdsList, h4, i3]⟩

/-- A singleton sequence over a `NodeFacts` node is pure and well formed. -/
theorem wf_nodes_single {nd : AdfNode} (h : NodeFacts nd) :
    seqOk [nd] = true ∧ listCheck wfP seqOk [nd] = true ∧ extIdsList [nd] = [] :=
  wf_nodes_list (fun x hx => by
    simp only [List.mem_singleton] at hx; subst hx; exact h)

theorem mediaSingle_facts (href text : String) :
    NodeFacts (convertImageToMediaSingle href text) := by
  unfold convertImageToMediaSingle
  obtain ⟨a, b, c⟩ :=
    wf_nodes_single (node_simple_facts (t := "media") (by decide) (by decide) (by decide))
  exact node_container_facts (by decide) (by decide) (by decide) a b c

theorem convertHeading_facts (d : Nat) (toks : List MToken) :
    NodeFacts (convertHeading d toks) := by
  obtain ⟨hs, hc, hi⟩ := convertInlineTokens_wf toks []
  exact node_container_facts (by decide) (by decide) (by decide) hs hc hi

theorem convertParagraphNodes_wf (toks : List MToken) :
    seqOk (convertParagraphNodes toks) = true ∧
    listCheck wfP seqOk (convertParagraphNodes toks) = true ∧
    extIdsList (convertParagraphNodes toks) = [] := by
  unfold convertParagraphNodes
  by_cases h : isImageOnlyParagraph toks
  · simp only [h, if_true]
    apply wf_nodes_list
    intro nd hnd
    simp only [List.mem_map] at hnd
    obtain ⟨p, _, rfl⟩ := hnd
    exact mediaSingle_facts p.1 p.2
  · simp only [h, if_false, Bool.false_eq_true]
    obtain ⟨hs, hc, hi⟩ := convertInlineTokens_wf toks []
    apply wf_nodes_list
    intro nd hnd
    simp only [List.mem_singleton] at hnd
    subst hnd
    split
    · exact node_container_facts (by decide) (by decide) (by decide) hs hc hi
    · exact node_container_facts (by decide) (by decide) (by decide)
        (by simp [seqOk]) (by simp [listCheck]) (by simp [extIdsList])

theorem tableCellNode_facts (ty : String) (cell : List MToken)
    (h1 : (ty == "extension") = false) (h2 : (ty == "listItem") = false)
    (h3 : (ty == "codeBlock") = false) :
    NodeFacts (tableCellNode ty cell) := by
  unfold tableCellNode
  obtain ⟨hs, hc, hi⟩ := convertInlineTokens_wf cell []
  obtain ⟨a, b, c⟩ := wf_nodes_single
    (node_container_facts (t := "paragraph") (by decide) (by decide) (by decide) hs hc hi)
  exact node_container_facts h1 h2 h3 a b c

theorem convertTable_facts (header : List (List MToken))
    (rows : List (List (List MToken))) :
    NodeFacts (convertTable header rows) := by
  unfold convertTable
  have rowFacts : ∀ (ty : String), (ty == "extension") = false →
      (ty == "listItem") = false → (ty == "codeBlock") = false →
      ∀ (cells : List (List MToken)),
      NodeFacts (AdfNode.mk "tableRow" [] (some (cells.map (tableCellNode ty))) none none) := by
    intro ty e1 e2 e3 cells
    have hmem : ∀ nd ∈ cells.map (tableCellNode ty), NodeFacts nd := by
      intro nd hnd
      simp only [List.mem_map] at hnd
      obtain ⟨cell, _, rfl⟩ := hnd
      exact tableCellNode_facts ty cell e1 e2 e3
    obtain ⟨a, b, c⟩ := wf_nodes_list hmem
    exact node_container_facts (by decide) (by decide) (by decide) a b c
  have hmem2 : ∀ nd ∈ (if header.length > 0 then
      [AdfNode.mk "tableRow" [] (some (header.map (tableCellNode "tableHeader"))) none none]
    else []) ++ rows.map (fun row =>
      AdfNode.mk "tableRow" [] (some (row.map (tableCellNode "tableCell"))) none none),
      NodeFacts nd := by
    intro nd hnd
    simp only [List.mem_append, List.mem_map] at hnd
    rcases hnd with hnd | ⟨row, _, rfl⟩
    · split at hnd
      · simp only [List.mem_singleton] at hnd
        subst hnd
        exact rowFacts "tableHeader" (by decide) (by decide) (by decide) header
      · simp at hnd
    · exact rowFacts "tableCell" (by decide) (by decide) (by decide) row
  obtain ⟨a, b, c⟩ := wf_nodes_list hmem2
  exact node_container_facts (by decide) (by decide) (by decide) a b c

theorem outSeq_single_pure {g : Nat → String} {n : Nat} {nd : AdfNode}
    (h : NodeFacts nd) : outSeq g n ([nd], n) := by
  obtain ⟨a, b, c⟩ := wf_nodes_single h
  exact outSeq_pure a b c

theorem outOpt_some {g : Nat → String} {n n' : Nat} {l : List AdfNode}
    (h : outSeq g n (l, n')) : outOpt g n (some l, n') := by
  simpa [outOpt] using h

theorem outOpt_none {g : Nat → String} {n : Nat} : outOpt g n (none, n) := by
  simpa [outOpt] using (outSeq_nil (g := g) (n := n))

/-- A `listItem` node over a nonempty well-formed sequence. -/
theorem outNode_listItem {g : Nat → String} {n n' : Nat} {l : List AdfNode}
    (hne : l.isEmpty = false) (h : outSeq g n (l, n')) :
    outNode g n (.mk "listItem" [] (some l) none none, n') := by
  obtain ⟨hle, hid, hs, hc⟩ := h
  dsimp only at hle hid hs hc
  refine ⟨hle, by simpa [extIdsNode] using hid, ?_,
    isExtB_mk_false (by decide), isMermaidB_mk_false (by decide)⟩
  simp [nodeCheck, wfP, extAttrsOkB, listItemOkB, AdfNode.type, AdfNode.content,
    hne, hs, hc]

theorem emptyParagraph_facts : NodeFacts emptyParagraph := by
  unfold emptyParagraph
  exact node_container_facts (by decide) (by decide) (by decide)
    (by simp [seqOk]) (by simp [listCheck]) (by simp [extIdsList])

/-- The `listItem` node synthesized for an item with no converted content. -/
theorem outNode_listItem_empty {g : Nat → String} {n : Nat} :
    outNode g n (.mk "listItem" [] (some [emptyParagraph]) none none, n) := by
  obtain ⟨a, b, c⟩ := wf_nodes_single emptyParagraph_facts
  refine ⟨Nat.le_refl n, ?_, ?_,
    isExtB_mk_false (by decide), isMermaidB_mk_false (by decide)⟩
  · simp [extIdsNode, c, Nat.sub_self]
  · simp [nodeCheck, wfP, extAttrsOkB, listItemOkB, AdfNode.type, AdfNode.content,
      a, b, List.isEmpty]

/-- The chunk a tight list-item text token contributes. -/
theorem tightChunk_wf {g : Nat → String} {n : Nat} (sub : List MToken) :
    outSeq g n
      (if (convertInlineTokens sub []).length > 0 then
        [AdfNode.mk "paragraph" [] (some (convertInlineTokens sub [])) none none]
      else [], n) := by
  obtain ⟨a, b, c⟩ := convertInlineTokens_wf sub []
  split
  · exact outSeq_single_pure (node_container_facts (by decide) (by decide) (by decide) a b c)
  · exact outSeq_nil

/-- `convertCodeBlock` satisfies the converter invariant: a mermaid block
consumes exactly one fresh identifier, every other block none. -/
theorem convertCodeBlock_out (g : Nat → String) (n : Nat) (text : String)
    (lang : Option String) : outSeq g n (convertCodeBlock g n text lang) := by
  unfold convertCodeBlock
  by_cases h : lang == some "mermaid"
  · have hl : lang = some "mermaid" := by
      cases lang with
      | none => simp at h
      | some x => simpa using h
    subst hl
    refine ⟨Nat.le_succ n, ?_, ?_, ?_⟩ <;>
      simp +decide [extIdsList, extIdsNode, buildMermaidExtensionNode, lookupA,
        seqOk, chainOk, isExtB, isMermaidB, nodeCheck, listCheck, wfP,
        extAttrsOkB, listItemOkB, AdfNode.type, AdfNode.attrs, AdfNode.content,
        strTruthy, MERMAID_EXTENSION_KEY, Nat.add_sub_cancel_left]
  · simp only [h, Bool.false_eq_true, if_false]
    have hm : isMermaidB (AdfNode.mk "codeBlock"
        (if strTruthy lang then [("language", AVal.str (lang.getD ""))] else [])
        (some [AdfNode.mk "text" [] none (some text) none]) none none) = false := by
      cases lang with
      | none => simp [isMermaidB, AdfNode.type, AdfNode.attrs, strTruthy, lookupA]
      | some x =>
        have hx : (x == "mermaid") = false := by simpa using h
        by_cases hxe : x.isEmpty <;>
          simp [isMermaidB, AdfNode.type, AdfNode.attrs, strTruthy, hxe, lookupA, hx]
    refine outSeq_pure (seqOk_cons_simple (isExtB_mk_false (by decide)) hm (by simp [seqOk])) ?_ ?_
    · obtain ⟨a, b, c⟩ := wf_nodes_single
        (@node_simple_facts "text" [] (some text) none (by decide) (by decide) (by decide))
      simp [listCheck, nodeCheck, wfP, extAttrsOkB, listItemOkB, AdfNode.type,
        AdfNode.content, a, b]
    · simp [extIdsList, extIdsNode, extIdsNode_simple]

/-- An empty output with a well-formed id trace forces an unchanged
counter. -/
theorem counter_fixed {g : Nat → String} {n n2 : Nat}
    (h : outSeq g n ([], n2)) : n2 = n := by
  obtain ⟨hle, hid, -, -⟩ := h
  dsimp only at hle hid
  simp only [extIdsList] at hid
  have hr : List.range' n (n2 - n) = [] := by
    cases hr : List.range' n (n2 - n) with
    | nil => rfl
    | cons a l => rw [hr] at hid; simp at hid
  rw [List.range'_eq_nil] at hr
  omega

/-- Main invariant: every run of the mutual block converters advances the
counter, emits exactly the fresh identifiers `g n, g (n+1), …` as extension
`localId`s (in document order), and produces a sequence in which every
content list satisfies `seqOk` and every node satisfies `wfP`. -/
theorem convertBlockTokens_wf (g : Nat → String) :
    ∀ (n : Nat) (toks : List MToken), outSeq g n (convertBlockTokens g n toks) := by
  refine convertBlockTokens.induct g
    (fun n toks => outSeq g n (convertBlockTokens g n toks))
    (fun n t => outOpt g n (convertBlockToken g n t))
    (fun n ordered start items => outNode g n (convertList g n ordered start items))
    (fun n items => outSeq g n (convertListItems g n items))
    (fun n item => outNode g n (convertListItem g n item))
    (fun n toks => outSeq g n (convertListItemToks g n toks))
    ?_ ?_ ?_ ?_ ?_ ?_ ?_ ?_ ?_ ?_ ?_ ?_ ?_ ?_ ?_ ?_ ?_ ?_ ?_ ?_ ?_ ?_ ?_
  -- 1: convertBlockTokens []
  · intro n
    simpa [convertBlockTokens] using (outSeq_nil (g := g) (n := n))
  -- 2: convertBlockTokens cons, chunk produced
  · intro n t rest l n1 h1 rs n2 h2 ih2 ih1
    have ha : outSeq g n (l, n1) := by simpa [outOpt, h1] using ih2
    have hb : outSeq g n1 (rs, n2) := by simpa [h2] using ih1
    simpa [convertBlockTokens, h1, h2] using outSeq_seq ha hb
  -- 3: convertBlockTokens cons, no chunk
  · intro n t rest n1 h1 ih2 ih1
    have ha : outSeq g n ([], n1) := by simpa [outOpt, h1] using ih2
    have hn : n1 = n := counter_fixed ha
    subst hn
    simpa [convertBlockTokens, h1] using ih1
  -- 4: heading
  · intro n d toks
    simpa [convertBlockToken, outOpt] using
      (outSeq_single_pure (g := g) (n := n) (convertHeading_facts d toks))
  -- 5: paragraph
  · intro n toks
    obtain ⟨a, b, c⟩ := convertParagraphNodes_wf toks
    simpa [convertBlockToken, outOpt] using
      (outSeq_pure (g := g) (n := n) a b c)
  -- 6: code
  · intro n s lang rs n2 h
    have hc := convertCodeBlock_out g n s lang
    rw [h] at hc
    simpa [convertBlockToken, h, outOpt] using hc
  -- 7: list
  · intro n ordered start items nd n1 h ih3
    rw [h] at ih3
    simpa [convertBlockToken, h, outOpt] using outSeq_single ih3
  -- 8: blockquote
  · intro n toks rs n2 h ih1
    rw [h] at ih1
    have hb := @outNode_container g n n2 "blockquote" [] none none rs
      (by decide) (by decide) (by decide) ih1
    simpa [convertBlockToken, h, outOpt] using outSeq_single hb
  -- 9: table
  · intro n header rows
    simpa [convertBlockToken, outOpt] using
      (outSeq_single_pure (g := g) (n := n) (convertTable_facts header rows))
  -- 10: hr
  · intro n
    simpa [convertBlockToken, outOpt] using
      (outSeq_simple_single (g := g) (n := n) (by decide) (by decide) (by decide))
  -- 11: html
  · intro n s
    by_cases hcond : s.trim.isEmpty
    · simpa [convertBlockToken, hcond] using (outOpt_none (g := g) (n := n))
    · have hpara : NodeFacts (AdfNode.mk "paragraph" []
          (some [mkTextNode s []]) none none) := by
        obtain ⟨a, b, c⟩ := wf_nodes_single
          (@node_simple_facts "text" [] (some s) (optMarks []) (by decide) (by decide) (by decide))
        simp only [mkTextNode]
        exact node_container_facts (by decide) (by decide) (by decide) a b c
      simpa [convertBlockToken, hcond] using
        (outOpt_some (outSeq_single_pure (g := g) (n := n) hpara))
  -- 12: block default
  · intro n x h1 h2 h3 h4 h5 h6 h7 h8
    cases x with
    | heading d toks => exact absurd rfl (h1 d toks)
    | paragraph toks => exact absurd rfl (h2 toks)
    | code s lang => exact absurd rfl (h3 s lang)
    | list o st it => exact absurd rfl (h4 o st it)
    | blockquote toks => exact absurd rfl (h5 toks)
    | table hd rws => exact absurd rfl (h6 hd rws)
    | hr => exact absurd rfl h7
    | html s => exact absurd rfl (h8 s)
    | space => simpa [convertBlockToken] using (outOpt_none (g := g) (n := n))
    | defTok => simpa [convertBlockToken] using (outOpt_none (g := g) (n := n))
    | text s tks => simpa [convertBlockToken] using (outOpt_none (g := g) (n := n))
    | escape s => simpa [convertBlockToken] using (outOpt_none (g := g) (n := n))
    | strong t => simpa [convertBlockToken] using (outOpt_none (g := g) (n := n))
    | em t => simpa [convertBlockToken] using (outOpt_none (g := g) (n := n))
    | del t => simpa [convertBlockToken] using (outOpt_none (g := g) (n := n))
    | codespan s => simpa [convertBlockToken] using (outOpt_none (g := g) (n := n))
    | link h t tk => simpa [convertBlockToken] using (outOpt_none (g := g) (n := n))
    | image h t tx => simpa [convertBlockToken] using (outOpt_none (g := g) (n := n))
    | br => simpa [convertBlockToken] using (outOpt_none (g := g) (n := n))
    | other ty tx => simpa [convertBlockToken] using (outOpt_none (g := g) (n := n))
  -- 13: convertList
  · intro n ordered start items rs n2 h ih4
    rw [h] at ih4
    cases start with
    | none =>
      have hx := @outNode_container g n n2
        (if ordered then "orderedList" else "bulletList")
        (if ordered then ([] : List (String × AVal)) else [])
        none none rs
        (by cases ordered <;> decide) (by cases ordered <;> decide)
        (by cases ordered <;> decide) ih4
      simpa [convertList, h] using hx
    | some st =>
      have hx := @outNode_container g n n2
        (if ordered then "orderedList" else "bulletList")
        (if ordered then (if st != 1 then [("order", AVal.nat st)] else []) else [])
        none none rs
        (by cases ordered <;> decide) (by cases ordered <;> decide)
        (by cases ordered <;> decide) ih4
      simpa [convertList, h] using hx
  -- 14: convertListItems []
  · intro n
    simpa [convertListItems] using (outSeq_nil (g := g) (n := n))
  -- 15: convertListItems cons
  · intro n item rest nd n1 h1 rs n2 h2 ih5 ih4
    rw [h1] at ih5
    rw [h2] at ih4
    simpa [convertListItems, h1, h2] using outSeq_seq (outSeq_single ih5) ih4
  -- 16: convertListItem
  · intro n item rs n2 h ih6
    rw [h] at ih6
    by_cases hre : rs.isEmpty
    · have hrs : rs = [] := by simpa [List.isEmpty_iff] using hre
      subst hrs
      have hn : n2 = n := counter_fixed ih6
      simpa [convertListItem, h, hn] using
        (outNode_listItem_empty (g := g) (n := n))
    · have hre' : rs.isEmpty = false := by simpa using hre
      simpa [convertListItem, h, hre'] using outNode_listItem hre' ih6
  -- 17: convertListItemToks []
  · intro n
    simpa [convertListItemToks] using (outSeq_nil (g := g) (n := n))
  -- 18: tight text
  · intro n text sub rest rs n2 h ih6
    rw [h] at ih6
    simpa [convertListItemToks, h] using outSeq_seq (tightChunk_wf sub) ih6
  -- 19: nested list
  · intro n ordered start items rest nd n1 h1 rs n2 h2 ih3 ih6
    rw [h1] at ih3
    rw [h2] at ih6
    simpa [convertListItemToks, h1, h2] using outSeq_seq (outSeq_single ih3) ih6
  -- 20: loose paragraph
  · intro n toks rest rs n2 h ih6
    rw [h] at ih6
    obtain ⟨a, b, c⟩ := convertParagraphNodes_wf toks
    simpa [convertListItemToks, h] using outSeq_seq (outSeq_pure a b c) ih6
  -- 21: space in item
  · intro n rest ih6
    simpa [convertListItemToks] using ih6
  -- 22: item default, chunk produced
  · intro n t rest h1 h2 h3 h4 l n1 h5 rs n2 h6 ih2 ih6
    have ha : outSeq g n (l, n1) := by simpa [outOpt, h5] using ih2
    have hb : outSeq g n1 (rs, n2) := by simpa [h6] using ih6
    have hres := outSeq_seq ha hb
    cases t with
    | text tx tks =>
      cases tks with
      | some sub => exact absurd rfl (h1 tx sub)
      | none => simpa [convertListItemToks, h5, h6] using hres
    | list o st it => exact absurd rfl (h2 o st it)
    | paragraph toks => exact absurd rfl (h3 toks)
    | space => exact absurd rfl h4
    | heading d toks => simpa [convertListItemToks, h5, h6] using hres
    | code s lang => simpa [convertListItemToks, h5, h6] using hres
    | blockquote toks => simpa [convertListItemToks, h5, h6] using hres
    | table hd rws => simpa [convertListItemToks, h5, h6] using hres
    | hr => simpa [convertListItemToks, h5, h6] using hres
    | html s => simpa [convertListItemToks, h5, h6] using hres
    | defTok => simpa [convertListItemToks, h5, h6] using hres
    | escape s => simpa [convertListItemToks, h5, h6] using hres
    | strong tk => simpa [convertListItemToks, h5, h6] using hres
    | em tk => simpa [convertListItemToks, h5, h6] using hres
    | del tk => simpa [convertListItemToks, h5, h6] using hres
    | codespan s => simpa [convertListItemToks, h5, h6] using hres
    | link h t tk => simpa [convertListItemToks, h5, h6] using hres
    | image h t tx => simpa [convertListItemToks, h5, h6] using hres
    | br => simpa [convertListItemToks, h5, h6] using hres
    | other ty tx => simpa [convertListItemToks, h5, h6] using hres
  -- 23: item default, no chunk
  · intro n t rest h1 h2 h3 h4 n1 h5 ih2 ih6
    have ha : outSeq g n ([], n1) := by simpa [outOpt, h5] using ih2
    have hn : n1 = n := counter_fixed ha
    subst hn
    cases t with
    | text tx tks =>
      cases tks with
      | some sub => exact absurd rfl (h1 tx sub)
      | none => simpa [convertListItemToks, h5] using ih6
    | list o st it => exact absurd rfl (h2 o st it)
    | paragraph toks => exact absurd rfl (h3 toks)
    | space => exact absurd rfl h4
    | heading d toks => simpa [convertListItemToks, h5] using ih6
    | code s lang => simpa [convertListItemToks, h5] using ih6
    | blockquote toks => simpa [convertListItemToks, h5] using ih6
    | table hd rws => simpa [convertListItemToks, h5] using ih6
    | hr => simpa [convertListItemToks, h5] using ih6
    | html s => simpa [convertListItemToks, h5] using ih6
    | defTok => simpa [convertListItemToks, h5] using ih6
    | escape s => simpa [convertListItemToks, h5] using ih6
    | strong tk => simpa [convertListItemToks, h5] using ih6
    | em tk => simpa [convertListItemToks, h5] using ih6
    | del tk => simpa [convertListItemToks, h5] using ih6
    | codespan s => simpa [convertListItemToks, h5] using ih6
    | link h t tk => simpa [convertListItemToks, h5] using ih6
    | image h t tx => simpa [convertListItemToks, h5] using ih6
    | br => simpa [convertListItemToks, h5] using ih6
    | other ty tx => simpa [convertListItemToks, h5] using ih6


/-! ## Document-level corollaries -/

theorem nodeCheck_mono {p p' : AdfNode → Bool} {q q' : List AdfNode → Bool}
    (hp : ∀ nd, p nd = true → p' nd = true)
    (hq : ∀ l, q l = true → q' l = true) :
    ∀ nd, nodeCheck p q nd = true → nodeCheck p' q' nd = true := by
  refine nodeCheck.induct p q
    (fun nd => nodeCheck p q nd = true → nodeCheck p' q' nd = true)
    (fun l => listCheck p q l = true → listCheck p' q' l = true)
    ?_ ?_ ?_
  · intro t a c tx mks ih
    cases c with
    | none =>
      intro h
      simp only [nodeCheck, Bool.and_eq_true] at h ⊢
      exact ⟨hp _ h.1, by simp⟩
    | some l =>
      have ih' : listCheck p q l = true → listCheck p' q' l = true := ih
      intro h
      simp only [nodeCheck, Bool.and_eq_true] at h ⊢
      exact ⟨hp _ h.1, hq l h.2.1, ih' h.2.2⟩
  · intro h
    simp [listCheck]
  · intro x rest ihx ihrest h
    simp only [listCheck, Bool.and_eq_true] at h ⊢
    exact ⟨ihx h.1, ihrest h.2⟩

theorem listCheck_mono {p p' : AdfNode → Bool} {q q' : List AdfNode → Bool}
    (hp : ∀ nd, p nd = true → p' nd = true)
    (hq : ∀ l, q l = true → q' l = true) :
    ∀ l, listCheck p q l = true → listCheck p' q' l = true := by
  intro l h
  induction l with
  | nil => simp [listCheck]
  | cons x xs ih =>
    simp only [listCheck, Bool.and_eq_true] at h ⊢
    exact ⟨nodeCheck_mono hp hq x h.1, ih h.2⟩

theorem docCheck_mono {p p' : AdfNode → Bool} {q q' : List AdfNode → Bool}
    (hp : ∀ nd, p nd = true → p' nd = true)
    (hq : ∀ l, q l = true → q' l = true)
    {d : AdfDocument} (h : docCheck p q d = true) : docCheck p' q' d = true := by
  simp only [docCheck, Bool.and_eq_true] at h ⊢
  exact ⟨hq _ h.1, listCheck_mono hp hq _ h.2⟩

/-- The full document built by `markdownToAdfTokens` passes the combined
well-formedness check, and its extension ids are an initial segment of the
generator stream. -/
theorem markdownToAdfTokens_wf (g : Nat → String) (toks : List MToken) :
    docCheck wfP seqOk (markdownToAdfTokens g toks) = true ∧
    ∃ k, extIdsDoc (markdownToAdfTokens g toks) = (List.range' 0 k).map g := by
  obtain ⟨hle, hid, hs, hc⟩ := convertBlockTokens_wf g 0 toks
  by_cases hlen : (convertBlockTokens g 0 toks).1.length > 0
  · constructor
    · simp only [markdownToAdfTokens, docCheck, hlen, if_true]
      simp [hs, hc]
    · refine ⟨(convertBlockTokens g 0 toks).2 - 0, ?_⟩
      simp only [markdownToAdfTokens, extIdsDoc, hlen, if_true]
      simpa using hid
  · obtain ⟨a, b, c⟩ := wf_nodes_single emptyParagraph_facts
    constructor
    · simp only [markdownToAdfTokens, docCheck, hlen, if_false]
      simp [a, b]
    · refine ⟨0, ?_⟩
      simp only [markdownToAdfTokens, extIdsDoc, hlen, if_false]
      simpa using c

/-! ## Storage-format renderer (`markdown-to-storage`)

The four renderer overrides (`code`, `image`, `link`, `hr`) and the helpers
`escapeXml`, `escapeCdata`, `isMarkdownFileLink`, `mdHrefToPageTitle` are
translated from the source.  String scanning (the `String.prototype.replace`
calls and the `/\.md(?:#.*)?$/` regex test) is modelled on `List Char` with
the same left-to-right, non-overlapping semantics. -/

/-- One global `replace` of a single character by a string (the semantics of
`String.replace(/c/g, r)`). -/
def replaceCharL (c : Char) (r : List Char) : List Char → List Char
  | [] => []
  | x :: xs => if x = c then r ++ replaceCharL c r xs else x :: replaceCharL c r xs

/-- The apostrophe character (`'`). -/
def apos : Char := Char.ofNat 39

/-- `escapeXml`: the five sequential global replaces of the source, ampersand
first. -/
def escapeXml (s : String) : String :=
  ⟨replaceCharL apos "&apos;".data
    (replaceCharL '"' "&quot;".data
      (replaceCharL '>' "&gt;".data
        (replaceCharL '<' "&lt;".data
          (replaceCharL '&' "&amp;".data s.data))))⟩

/-- `escapeCdata` on characters: every occurrence of the CDATA terminator
`]]>` (leftmost, non-overlapping, as the global regex replace scans) becomes
`]]]]><![CDATA[>`. -/
def escCdata : List Char → List Char
  | ']' :: ']' :: '>' :: rest => "]]]]><![CDATA[>".data ++ escCdata rest
  | c :: rest => c :: escCdata rest
  | [] => []

def escapeCdata (s : String) : String := ⟨escCdata s.data⟩

/-- A JS regex line terminator (not matched by `.`). -/
def isLineTerm (c : Char) : Bool :=
  c = '\n' || c = '\r' || c.val = 0x2028 || c.val = 0x2029

/-- Does `\.md(?:#.*)?$` match exactly at the start of this suffix (reaching
the end of the string)? -/
def mdSuffixAt : List Char → Bool
  | '.' :: 'm' :: 'd' :: [] => true
  | '.' :: 'm' :: 'd' :: '#' :: rest => !rest.any isLineTerm
  | _ => false

/-- The regex test `/\.md(?:#.*)?$/.test(href)`: some suffix matches. -/
def mdRegexTest : List Char → Bool
  | [] => false
  | l@(_ :: xs) => mdSuffixAt l || mdRegexTest xs

def isSchemeRest (c : Char) : Bool :=
  c.isAlphanum || c = '+' || c = '-' || c = '.'

def schemeSplitAux : List Char → List Char → Option (List Char × List Char)
  | acc, ':' :: rest => some (acc.reverse, rest)
  | acc, c :: rest =>
      if isSchemeRest c then schemeSplitAux (c :: acc) rest else none
  | _, [] => none

/-- Split a leading URL scheme (`alpha (alphanum|+|-|.)* ':'`) off a string,
returning the scheme letters and the remainder after the colon. -/
def splitScheme : List Char → Option (List Char × List Char)
  | c :: rest => if c.isAlpha then schemeSplitAux [c] rest else none
  | [] => none

/-- The host part of an authority: up to the first `/`, `\`, `?` or `#`,
with any userinfo (`…@`) and port (`:…`) stripped. -/
def hostOf (l : List Char) : List Char :=
  let auth := l.takeWhile (fun c => c != '/' && c != '?' && c != '#' && c != '\\')
  let afterUser := (auth.reverse.takeWhile (fun c => c != '@')).reverse
  afterUser.takeWhile (fun c => c != ':')

def specialSchemes : List String := ["http", "https", "ws", "wss", "ftp", "file"]

def dropLeadingSlashes : List Char → List Char
  | '/' :: rest => dropLeadingSlashes rest
  | '\\' :: rest => dropLeadingSlashes rest
  | l => l

/-- Modelled from the spec: the host check of `isMarkdownFileLink` calls the
WHATWG `URL` constructor (platform code outside this repository) with base
`"http://dummy"` and reports whether the parsed host differs from `"dummy"`.
Modelled resolution: a protocol-relative `//…` href or a scheme-absolute
href gets its own host; a scheme equal to the base scheme (`http`) without an
authority is base-relative (host `dummy`); other special schemes parse a host
after any slashes; non-special schemes give an opaque path with an empty
host (≠ `"dummy"`); scheme-free hrefs resolve against the base with host
`dummy`. -/
def urlSchemeCase (l : List Char) : Bool :=
  match splitScheme l with
  | some (sch, rest) =>
    let s := (String.mk sch).toLower
    match rest with
    | '/' :: '/' :: rest2 => hostOf rest2 != "dummy".data
    | _ =>
      if s = "http" then false
      else if specialSchemes.contains s then
        hostOf (dropLeadingSlashes rest) != "dummy".data
      else true
  | none => false

def urlRealHostL : List Char → Bool
  | '/' :: '/' :: rest => hostOf rest != "dummy".data
  | l => urlSchemeCase l

def urlRealHost (href : String) : Bool := urlRealHostL href.data

/-- `isMarkdownFileLink`: no real host, and the `.md`/`.md#fragment` suffix
test succeeds. -/
def isMarkdownFileLink (href : String) : Bool :=
  !urlRealHost href && mdRegexTest href.data

/-- `href.split("#")[0]` — characters before the first occurrence. -/
def takeBeforeChar (c : Char) : List Char → List Char
  | [] => []
  | x :: xs => if x = c then [] else x :: takeBeforeChar c xs

/-- `l.split(c).pop()` — characters after the last occurrence. -/
def afterLastChar (c : Char) (l : List Char) : List Char :=
  (l.reverse.takeWhile (fun x => x != c)).reverse

/-- `replace(/\.md$/, "")`: drop a final `.md` if present. -/
def stripMdExt (l : List Char) : List Char :=
  match l.reverse with
  | 'd' :: 'm' :: '.' :: r => r.reverse
  | _ => l

/-- `mdHrefToPageTitle`: strip the fragment, the directories and the `.md`
extension. -/
def mdHrefToPageTitle (href : String) : String :=
  ⟨stripMdExt (afterLastChar '/' (takeBeforeChar '#' href.data))⟩

/-- The `code` renderer override: Confluence structured-macro with an
optional language parameter and a CDATA-wrapped body. -/
def storageCode (text : String) (lang : Option String) : String :=
  let langParam :=
    if strTruthy lang then
      "<ac:parameter ac:name=\"language\">" ++ escapeXml (lang.getD "") ++
        "</ac:parameter>"
    else ""
  "<ac:structured-macro ac:name=\"code\">" ++ langParam ++
    "<ac:plain-text-body><![CDATA[" ++ escapeCdata text ++
    "]]></ac:plain-text-body>" ++ "</ac:structured-macro>\n"

/-- The `image` renderer override. -/
def storageImage (href : String) (title : Option String) (text : String) : String :=
  let altAttr := if text.isEmpty then "" else " ac:alt=\"" ++ escapeXml text ++ "\""
  let titleAttr :=
    if strTruthy title then " ac:title=\"" ++ escapeXml (title.getD "") ++ "\""
    else ""
  "<ac:image" ++ altAttr ++ titleAttr ++ ">" ++
    "<ri:url ri:value=\"" ++ escapeXml href ++ "\" />" ++ "</ac:image>"

/-- The `link` renderer override: `some` of the `ac:link` cross-document
macro for markdown-file links, `none` (return `false`, fall through to the
default anchor renderer) otherwise.  `body` stands for
`this.parser.parseInline(tokens)`. -/
def storageLink (href : String) (title : Option String) (body : String) :
    Option String :=
  if !href.isEmpty && isMarkdownFileLink href then
    some ("<ac:link" ++
      (if strTruthy title then " ac:title=\"" ++ escapeXml (title.getD "") ++ "\""
       else "") ++ ">" ++
      "<ri:page ri:content-title=\"" ++ escapeXml (mdHrefToPageTitle href) ++
      "\" />" ++ "<ac:link-body>" ++ body ++ "</ac:link-body>" ++ "</ac:link>")
  else none

/-- The `hr` renderer override. -/
def storageHr : String := "<hr />\n"

/-! Modelled from the spec: the default `marked` HTML renderer (external
library) is used for every construct the source does not override.  Heading,
paragraph, list, blockquote, table and inline output follow marked's
documented default HTML shapes; only the `code`, `image`, `link` and `hr`
renderers are the source's overrides.  The storage claims depend only on the
overridden renderers and on this walk being a pure total function. -/
mutual

def storageInline : List MToken → String
  | [] => ""
  | t :: rest => storageInlineTok t ++ storageInline rest
termination_by toks => (sizeOf toks, 0)

def storageInlineTok : MToken → String
  | .text s _ => escapeXml s
  | .escape s => escapeXml s
  | .strong sub => "<strong>" ++ storageInline sub ++ "</strong>"
  | .em sub => "<em>" ++ storageInline sub ++ "</em>"
  | .del sub => "<del>" ++ storageInline sub ++ "</del>"
  | .codespan s => "<code>" ++ escapeXml s ++ "</code>"
  | .br => "<br>"
  | .link href title sub =>
      match storageLink href title (storageInline sub) with
      | some out => out
      | none =>
          "<a href=\"" ++ escapeXml href ++ "\"" ++
            (if strTruthy title then " title=\"" ++ escapeXml (title.getD "") ++ "\""
             else "") ++ ">" ++ storageInline sub ++ "</a>"
  | .image href title tx => storageImage href title tx
  | .other _ (some s) => escapeXml s
  | _ => ""
termination_by t => (sizeOf t, 0)

end

mutual

def storageBlocks : List MToken → String
  | [] => ""
  | t :: rest => storageBlockTok t ++ storageBlocks rest
termination_by toks => (sizeOf toks, 0)

def storageBlockTok : MToken → String
  | .heading d toks =>
      "<h" ++ toString d ++ ">" ++ storageInline toks ++ "</h" ++ toString d ++ ">\n"
  | .paragraph toks => "<p>" ++ storageInline toks ++ "</p>\n"
  | .code text lang => storageCode text lang
  | .hr => storageHr
  | .list ordered _ items =>
      (if ordered then "<ol>\n" else "<ul>\n") ++ storageListItems items ++
        (if ordered then "</ol>\n" else "</ul>\n")
  | .blockquote toks => "<blockquote>\n" ++ storageBlocks toks ++ "</blockquote>\n"
  | .table header rows =>
      "<table>\n<thead>\n<tr>\n" ++
        String.join (header.map (fun cell =>
          "<th>" ++ storageInline cell ++ "</th>\n")) ++
        "</tr>\n</thead>\n<tbody>\n" ++
        String.join (rows.map (fun row =>
          "<tr>\n" ++ String.join (row.map (fun cell =>
            "<td>" ++ storageInline cell ++ "</td>\n")) ++ "</tr>\n")) ++
        "</tbody>\n</table>\n"
  | .html s => s
  | .space => ""
  | .text s _ => escapeXml s
  | t => storageInlineTok t
termination_by t => (sizeOf t, 1)

def storageListItems : List (List MToken) → String
  | [] => ""
  | item :: rest =>
      "<li>" ++ storageBlocks item ++ "</li>\n" ++ storageListItems rest
termination_by items => (sizeOf items, 0)

end

/-- `markdownToStorageFormat` downstream of the external `marked` lexer.  To
state independence from the process-wide random identifier generator, the
model receives the generator as an explicit argument; the storage renderer's
body (translated from the source, which never imports `randomUUID`) makes no
use of it. -/
def markdownToStorageTokens (g : Nat → String) (toks : List MToken) : String :=
  storageBlocks toks

/-! ## CDATA safety (claim C3)

`storageCode` wraps `escapeCdata text` as `<![CDATA[` … `]]>`.  The safety
property is that parsing the wrapped body back as a chain of CDATA sections
— reading greedily up to the first `]]>`, resuming after each immediate
`<![CDATA[` reopen — recovers the original text exactly: no `]]>` of the
code text can terminate a section early, and all surrounding text survives
unchanged. -/

/-- Greedy CDATA-section reader for a stream positioned after an opening
`<![CDATA[`: the first `]]>` ends the current section; if it is immediately
followed by a `<![CDATA[` reopen the next section continues, a terminator at
the very end closes the stream.  Returns the concatenation of all section
contents, `none` for any other shape. -/
def unescCdata : List Char → Option (List Char)
  | ']' :: ']' :: '>' :: rest =>
    match rest with
    | '<' :: '!' :: '[' :: 'C' :: 'D' :: 'A' :: 'T' :: 'A' :: '[' :: rest2 =>
        unescCdata rest2
    | [] => some []
    | _ => none
  | c :: rest => (unescCdata rest).map (c :: ·)
  | [] => none

theorem replData :
    "]]]]><![CDATA[>".data = ']' :: ']' :: ']' :: ']' :: '>' :: '<' :: '!' :: '['
      :: 'C' :: 'D' :: 'A' :: 'T' :: 'A' :: '[' :: '>' :: [] := rfl

theorem unesc_cons_ne (c : Char) (hc : c ≠ ']') (l : List Char) :
    unescCdata (c :: l) = (unescCdata l).map (c :: ·) :=
  unescCdata.eq_4 c l (fun _ h1 _ => hc h1)

theorem unesc_cons_rb (l : List Char) (hl : ∀ u, l ≠ ']' :: '>' :: u) :
    unescCdata (']' :: l) = (unescCdata l).map (']' :: ·) :=
  unescCdata.eq_4 _ l (fun r1 _ h2 => hl r1 h2)

/-- The escaped text followed by the final terminator never starts with
`>` unless the source text did. -/
theorem escCdata_close_gt {r u : List Char}
    (h : escCdata r ++ [']', ']', '>'] = '>' :: u) : ∃ v, r = '>' :: v := by
  induction r using escCdata.induct with
  | case1 rest ih =>
    rw [escCdata.eq_1, replData] at h
    simp at h
  | case2 c rest hexcl ih =>
    rw [escCdata.eq_2 c rest hexcl, List.cons_append] at h
    injection h with h1 h2
    exact ⟨rest, by rw [h1]⟩
  | case3 =>
    rw [escCdata.eq_3, List.nil_append] at h
    simp at h

/-- The escaped text followed by the final terminator never starts with
`]>` unless the source text did. -/
theorem escCdata_close_rbgt {r u : List Char}
    (h : escCdata r ++ [']', ']', '>'] = ']' :: '>' :: u) :
    ∃ v, r = ']' :: '>' :: v := by
  induction r using escCdata.induct with
  | case1 rest ih =>
    rw [escCdata.eq_1, replData] at h
    simp at h
  | case2 c rest hexcl ih =>
    rw [escCdata.eq_2 c rest hexcl, List.cons_append] at h
    injection h with h1 h2
    obtain ⟨v, hv⟩ := escCdata_close_gt h2
    exact ⟨v, by rw [h1, hv]⟩
  | case3 =>
    rw [escCdata.eq_3, List.nil_append] at h
    simp at h

/-- **CDATA round trip**: wrapping any code text with `escapeCdata` inside a
CDATA section and parsing it back as a greedy chain of CDATA sections
recovers the text exactly — no `]]>` of the code text terminates the
section early, and all surrounding characters are preserved. -/
theorem escCdata_roundtrip (s : List Char) :
    unescCdata (escCdata s ++ [']', ']', '>']) = some s := by
  induction s using escCdata.induct with
  | case1 rest ih =>
    rw [escCdata.eq_1, replData]
    simp only [List.cons_append, List.nil_append, List.append_assoc]
    rw [unesc_cons_rb _ (by intro u hu; simp at hu),
      unesc_cons_rb _ (by intro u hu; simp at hu),
      unescCdata.eq_1,
      unesc_cons_ne '>' (by decide) _,
      ih]
    rfl
  | case2 c rest hexcl ih =>
    rw [escCdata.eq_2 c rest hexcl, List.cons_append]
    by_cases hc : c = ']'
    · subst hc
      rw [unesc_cons_rb _ (fun u hu => by
        obtain ⟨v, hv⟩ := escCdata_close_rbgt hu
        exact hexcl v rfl hv), ih]
      rfl
    · rw [unesc_cons_ne c hc, ih]
      rfl
  | case3 =>
    rw [escCdata.eq_3, List.nil_append, unescCdata.eq_2]

/-! ## Link-rewriting lemmas (claim C4) -/

theorem schemeSplitAux_none (acc l : List Char) (h : ':' ∉ l) :
    schemeSplitAux acc l = none := by
  induction l generalizing acc with
  | nil => simp [schemeSplitAux]
  | cons c r ih =>
    have hc : ¬ (c = ':') := fun hh => h (hh ▸ List.mem_cons_self c r)
    have hr : ':' ∉ r := fun hm => h (List.mem_cons_of_mem _ hm)
    rw [schemeSplitAux.eq_2 acc c r hc]
    by_cases hs : isSchemeRest c = true
    · rw [if_pos hs]
      exact ih _ hr
    · rw [if_neg hs]

theorem splitScheme_none {l : List Char} (h : ':' ∉ l) : splitScheme l = none := by
  cases l with
  | nil => simp [splitScheme]
  | cons c r =>
    simp only [splitScheme]
    split
    · exact schemeSplitAux_none [c] r (fun hr => h (List.mem_cons_of_mem _ hr))
    · rfl

/-- A colon-free href that is not protocol-relative resolves against the
base URL, keeping host `dummy`. -/
theorem urlRealHostL_relative {l : List Char}
    (h1 : ∀ rest, l ≠ '/' :: '/' :: rest) (h2 : ':' ∉ l) :
    urlRealHostL l = false := by
  rw [urlRealHostL.eq_2 l (fun rest hh => h1 rest hh)]
  simp [urlSchemeCase, splitScheme_none h2]

theorem mdRegexTest_of_suffix {tail : List Char} (a : List Char)
    (h : mdSuffixAt tail = true) : mdRegexTest (a ++ tail) = true := by
  induction a with
  | nil =>
    cases tail with
    | nil => simp [mdSuffixAt] at h
    | cons x xs => simp [mdRegexTest, h]
  | cons x a' ih => simp [mdRegexTest, ih]

theorem takeBeforeChar_no {c : Char} {a : List Char} (h : c ∉ a) :
    takeBeforeChar c a = a := by
  induction a with
  | nil => rfl
  | cons x xs ih =>
    have hx : ¬ (x = c) := fun hh => h (hh ▸ List.mem_cons_self x xs)
    simp [takeBeforeChar, hx, ih (fun hm => h (List.mem_cons_of_mem _ hm))]

theorem takeBeforeChar_append {c : Char} {a b : List Char} (h : c ∉ a) :
    takeBeforeChar c (a ++ c :: b) = a := by
  induction a with
  | nil => simp [takeBeforeChar]
  | cons x xs ih =>
    have hx : ¬ (x = c) := fun hh => h (hh ▸ List.mem_cons_self x xs)
    simp [takeBeforeChar, hx, ih (fun hm => h (List.mem_cons_of_mem _ hm))]

theorem afterLastChar_no {c : Char} {b : List Char} (hb : c ∉ b) :
    afterLastChar c b = b := by
  unfold afterLastChar
  have hall : ∀ x ∈ b.reverse, (x != c) = true := by
    intro x hx
    simp only [bne_iff_ne, ne_eq]
    exact fun hh => hb (hh ▸ List.mem_reverse.mp hx)
  have h2 : (b.reverse ++ ([] : List Char)).takeWhile (fun x => x != c)
      = b.reverse ++ ([] : List Char).takeWhile (fun x => x != c) :=
    List.takeWhile_append_of_pos hall
  simp only [List.append_nil, List.takeWhile_nil] at h2
  rw [h2, List.reverse_reverse]

theorem afterLastChar_append_sep {c : Char} {d b : List Char} (hb : c ∉ b) :
    afterLastChar c (d ++ c :: b) = b := by
  unfold afterLastChar
  have hall : ∀ x ∈ b.reverse, (x != c) = true := by
    intro x hx
    simp only [bne_iff_ne, ne_eq]
    exact fun hh => hb (hh ▸ List.mem_reverse.mp hx)
  rw [List.reverse_append, List.reverse_cons, List.append_assoc,
    List.takeWhile_append_of_pos hall]
  simp

theorem stripMdExt_append (b : List Char) :
    stripMdExt (b ++ '.' :: 'm' :: 'd' :: []) = b := by
  unfold stripMdExt
  rw [List.reverse_append]
  simp

/-- Stripping the fragment, the directory components and the `.md` extension
from `d ++ nm ++ ".md" ++ tail` recovers the file name `nm`. -/
theorem mdTitle_chars (d nm tail : List Char)
    (hd : '#' ∉ d) (hn1 : '#' ∉ nm) (hn2 : '/' ∉ nm)
    (hdl : d = [] ∨ ∃ dp, d = dp ++ ['/'])
    (htail : tail = [] ∨ ∃ f, tail = '#' :: f) :
    stripMdExt (afterLastChar '/' (takeBeforeChar '#'
      (d ++ nm ++ '.' :: 'm' :: 'd' :: [] ++ tail))) = nm := by
  have hno : '#' ∉ d ++ nm ++ '.' :: 'm' :: 'd' :: [] := by
    simp only [List.mem_append, List.mem_cons, List.not_mem_nil]
    push_neg
    refine ⟨⟨hd, hn1⟩, by decide, by decide, by decide, by decide⟩
  have h1 : takeBeforeChar '#' (d ++ nm ++ '.' :: 'm' :: 'd' :: [] ++ tail)
      = d ++ nm ++ '.' :: 'm' :: 'd' :: [] := by
    rcases htail with rfl | ⟨f, rfl⟩
    · rw [List.append_nil]
      exact takeBeforeChar_no hno
    · exact takeBeforeChar_append hno
  rw [h1]
  have hmem : '/' ∉ nm ++ '.' :: 'm' :: 'd' :: [] := by
    simp only [List.mem_append, List.mem_cons, List.not_mem_nil]
    push_neg
    refine ⟨hn2, by decide, by decide, by decide, by decide⟩
  have h2 : afterLastChar '/' (d ++ nm ++ '.' :: 'm' :: 'd' :: [])
      = nm ++ '.' :: 'm' :: 'd' :: [] := by
    rcases hdl with rfl | ⟨dp, rfl⟩
    · simpa [List.append_assoc] using afterLastChar_no hmem
    · have hsh : (dp ++ ['/']) ++ nm ++ '.' :: 'm' :: 'd' :: []
          = dp ++ '/' :: (nm ++ '.' :: 'm' :: 'd' :: []) := by
        simp
      rw [hsh]
      exact afterLastChar_append_sep hmem
  rw [h2]
  exact stripMdExt_append nm

theorem schemeSplitAux_stopper (acc a rest : List Char) (c0 : Char)
    (hc0 : ¬ (c0 = ':')) (hs0 : ¬ (isSchemeRest c0 = true)) (h : ':' ∉ a) :
    schemeSplitAux acc (a ++ c0 :: rest) = none := by
  induction a generalizing acc with
  | nil =>
    rw [List.nil_append, schemeSplitAux.eq_2 acc c0 rest hc0, if_neg hs0]
  | cons c r ih =>
    have hc : ¬ (c = ':') := fun hh => h (hh ▸ List.mem_cons_self c r)
    rw [List.cons_append, schemeSplitAux.eq_2 acc c _ hc]
    by_cases hs : isSchemeRest c = true
    · rw [if_pos hs]
      exact ih _ (fun hm => h (List.mem_cons_of_mem _ hm))
    · rw [if_neg hs]

theorem splitScheme_stopper {a rest : List Char} (c0 : Char)
    (hc0 : ¬ (c0 = ':')) (hs0 : ¬ (isSchemeRest c0 = true)) (h : ':' ∉ a) :
    splitScheme (a ++ c0 :: rest) = none := by
  cases a with
  | nil =>
    rw [List.nil_append]
    simp only [splitScheme]
    split
    · rename_i halpha
      exact absurd (by simp [isSchemeRest, Char.isAlphanum, halpha]) hs0
    · rfl
  | cons c r =>
    rw [List.cons_append]
    simp only [splitScheme]
    split
    · exact schemeSplitAux_stopper [c] r rest c0 hc0 hs0
        (fun hm => h (List.mem_cons_of_mem _ hm))
    · rfl

theorem urlRealHostL_noscheme {l : List Char}
    (h1 : ∀ rest, l ≠ '/' :: '/' :: rest) (h2 : splitScheme l = none) :
    urlRealHostL l = false := by
  rw [urlRealHostL.eq_2 l (fun rest hh => h1 rest hh)]
  simp [urlSchemeCase, h2]

/-- A relative href `d ++ nm ++ ".md" ++ frag` (directory prefix `d` empty
or slash-terminated, colon- and hash-free; file name `nm` free of `/`, `#`
and `:`; `frag` empty or `#fragment` without line terminators; the href not
protocol-relative) passes `isMarkdownFileLink`, and its page title is the
file name `nm`. -/
theorem isMarkdownFileLink_relative (d nm frag : String)
    (hd1 : '#' ∉ d.data) (hd2 : ':' ∉ d.data)
    (hn1 : '#' ∉ nm.data) (hn2 : '/' ∉ nm.data) (hn3 : ':' ∉ nm.data)
    (hdl : d.data = [] ∨ ∃ dp, d.data = dp ++ ['/'])
    (hfr : frag = "" ∨ ∃ f : String, frag = "#" ++ f ∧
      ∀ c ∈ f.data, ¬ (isLineTerm c = true))
    (hns : ∀ rest, (d ++ nm ++ ".md" ++ frag).data ≠ '/' :: '/' :: rest) :
    isMarkdownFileLink (d ++ nm ++ ".md" ++ frag) = true ∧
    mdHrefToPageTitle (d ++ nm ++ ".md" ++ frag) = nm := by
  have hdata : (d ++ nm ++ ".md" ++ frag).data
      = d.data ++ nm.data ++ '.' :: 'm' :: 'd' :: [] ++ frag.data := by
    simp only [String.data_append]
  have hmdno : ':' ∉ ('.' :: 'm' :: 'd' :: [] : List Char) := by decide
  have hhost : urlRealHostL ((d ++ nm ++ ".md" ++ frag).data) = false := by
    rw [hdata]
    refine urlRealHostL_noscheme (fun rest hh => hns rest (by rw [hdata, hh])) ?_
    have hnotin : ':' ∉ d.data ++ nm.data ++ '.' :: 'm' :: 'd' :: [] := by
      intro hm
      rcases List.mem_append.mp hm with hm1 | hm2
      · rcases List.mem_append.mp hm1 with hm3 | hm4
        · exact hd2 hm3
        · exact hn3 hm4
      · simp at hm2
    rcases hfr with rfl | ⟨f, rfl, hf⟩
    · apply splitScheme_none
      simpa using hnotin
    · have hfd : ("#" ++ f).data = '#' :: f.data := by
        simp only [String.data_append]
        rfl
      rw [hfd, show d.data ++ nm.data ++ '.' :: 'm' :: 'd' :: [] ++ '#' :: f.data
          = (d.data ++ nm.data ++ '.' :: 'm' :: 'd' :: []) ++ '#' :: f.data from rfl]
      exact splitScheme_stopper '#' (by decide) (by decide) hnotin
  have hregex : mdRegexTest ((d ++ nm ++ ".md" ++ frag).data) = true := by
    rw [hdata]
    rcases hfr with rfl | ⟨f, rfl, hf⟩
    · have : d.data ++ nm.data ++ '.' :: 'm' :: 'd' :: [] ++ ("" : String).data
          = (d.data ++ nm.data) ++ ('.' :: 'm' :: 'd' :: []) := by simp
      rw [this]
      exact mdRegexTest_of_suffix _ (by decide)
    · have hfd : ("#" ++ f).data = '#' :: f.data := by
        simp only [String.data_append]
        rfl
      have : d.data ++ nm.data ++ '.' :: 'm' :: 'd' :: [] ++ ("#" ++ f).data
          = (d.data ++ nm.data) ++ ('.' :: 'm' :: 'd' :: '#' :: f.data) := by
        rw [hfd]
        simp
      rw [this]
      apply mdRegexTest_of_suffix
      have hany : f.data.any isLineTerm = false := by
        rw [List.any_eq_false]
        exact hf
      simp [mdSuffixAt, hany]
  constructor
  · unfold isMarkdownFileLink urlRealHost
    rw [hhost, hregex]
    rfl
  · show String.mk (stripMdExt (afterLastChar '/' (takeBeforeChar '#'
      ((d ++ nm ++ ".md" ++ frag).data)))) = nm
    rw [hdata]
    have htail : frag.data = [] ∨ ∃ fl, frag.data = '#' :: fl := by
      rcases hfr with rfl | ⟨f, rfl, -⟩
      · exact Or.inl rfl
      · exact Or.inr ⟨f.data, by simp only [String.data_append]; rfl⟩
    rw [mdTitle_chars d.data nm.data frag.data hd1 hn1 hn2 hdl htail]

/-- Nonemptiness of the composed href (the `href &&` truthiness check). -/
theorem composed_ne_empty (d nm frag : String) :
    (d ++ nm ++ ".md" ++ frag).isEmpty = false := by
  by_cases hh : (d ++ nm ++ ".md" ++ frag).isEmpty = true
  · exfalso
    have h1 := (String.isEmpty_iff _).mp hh
    have h2 := congrArg String.data h1
    simp [String.data_append] at h2
  · exact Bool.eq_false_iff.mpr hh

/-- The `link` override emits the cross-document macro whenever the href is
truthy and `isMarkdownFileLink` accepts it. -/
theorem storageLink_some {href : String} (title : Option String) (body : String)
    (h : isMarkdownFileLink href = true) (hne : href.isEmpty = false) :
    storageLink href title body = some ("<ac:link" ++
      (if strTruthy title then " ac:title=\"" ++ escapeXml (title.getD "") ++ "\""
       else "") ++ ">" ++
      "<ri:page ri:content-title=\"" ++ escapeXml (mdHrefToPageTitle href) ++
      "\" />" ++ "<ac:link-body>" ++ body ++ "</ac:link-body>" ++ "</ac:link>") := by
  simp [storageLink, h, hne]

/-! ## Substring checking and escaping lemmas (claims C2, C9) -/

/-- Is `needle` a prefix of `hay`? -/
def substrAt : List Char → List Char → Bool
  | [], _ => true
  | _ :: _, [] => false
  | a :: as, b :: bs => a == b && substrAt as bs

/-- Does `needle` occur as a contiguous substring of `hay`? -/
def containsSub (needle : List Char) : List Char → Bool
  | [] => needle.isEmpty
  | l@(_ :: t) => substrAt needle l || containsSub needle t

theorem replaceCharL_no {c : Char} {r l : List Char} (h : c ∉ l) :
    replaceCharL c r l = l := by
  induction l with
  | nil => rfl
  | cons x xs ih =>
    have hx : ¬ (x = c) := fun hh => h (hh ▸ List.mem_cons_self x xs)
    simp [replaceCharL, hx, ih (fun hm => h (List.mem_cons_of_mem _ hm))]

/-- `escapeXml` never alters a string free of the five reserved
characters. -/
theorem escapeXml_id {s : String}
    (h : ∀ c ∈ s.data, c ≠ '&' ∧ c ≠ '<' ∧ c ≠ '>' ∧ c ≠ '"' ∧ c ≠ apos) :
    escapeXml s = s := by
  unfold escapeXml
  rw [replaceCharL_no (fun hm => ((h _ hm).1 rfl).elim),
    replaceCharL_no (fun hm => ((h _ hm).2.1 rfl).elim),
    replaceCharL_no (fun hm => ((h _ hm).2.2.1 rfl).elim),
    replaceCharL_no (fun hm => ((h _ hm).2.2.2.1 rfl).elim),
    replaceCharL_no (fun hm => ((h _ hm).2.2.2.2 rfl).elim)]

/-! ## Claim theorems -/

/-- C1: in every document returned by `markdownToAdf`, an extension node
appears in a container's content sequence exactly when its immediately
preceding sibling is a `codeBlock` with language `"mermaid"` (and such a
`codeBlock` is always followed by one); every extension node carries
`attrs.extensionType = "com.atlassian.ecosystem"`, the fixed mermaid
extension key, and one freshly generated identifier duplicated in
`attrs.localId` and `attrs.parameters.localId`; identifiers of distinct
extension nodes are distinct (given the generator's injectivity, i.e.
`randomUUID`'s uniqueness contract). -/
theorem C1_mermaid_extension_adjacency (g : Nat → String) (toks : List MToken)
    (hg : Function.Injective g) :
    docCheck extAttrsOkB seqOk (markdownToAdfTokens g toks) = true ∧
    (extIdsDoc (markdownToAdfTokens g toks)).Nodup := by
  obtain ⟨hwf, k, hids⟩ := markdownToAdfTokens_wf g toks
  refine ⟨?_, ?_⟩
  · refine docCheck_mono ?_ (fun l hl => hl) hwf
    intro nd h
    simp only [wfP, Bool.and_eq_true] at h
    exact h.1
  · rw [hids]
    exact (List.nodup_range' 0 k).map hg

/-- An injective stand-in for `randomUUID` used by witness instances. -/
def gW : Nat → String := fun k => ⟨List.replicate k 'a'⟩

theorem gW_injective : Function.Injective gW := by
  intro a b h
  have h2 := congrArg (fun s : String => s.data.length) h
  simpa [gW] using h2

/-- Sample token stream with two mermaid blocks and a non-mermaid block. -/
def c1Toks : List MToken :=
  [MToken.code "graph TD;" (some "mermaid"),
   MToken.paragraph [MToken.text "x" none],
   MToken.code "graph LR;" (some "mermaid"),
   MToken.code "print(1)" (some "python")]

theorem C1_mermaid_extension_adjacency_witness :
    Function.Injective gW ∧
    (docCheck extAttrsOkB seqOk (markdownToAdfTokens gW c1Toks) = true ∧
      (extIdsDoc (markdownToAdfTokens gW c1Toks)).Nodup) :=
  ⟨gW_injective, C1_mermaid_extension_adjacency gW c1Toks gW_injective⟩

/-- C5: both renderers are total over every token stream the lexer can
produce: the ADF conversion always yields a version-1 `doc` with at least
one block, and the storage conversion always yields a string.  (Totality of
the embedded definitions is certified by Lean's termination checker; the
lexer itself is the external `marked` library.) -/
theorem C5_renderers_total (g : Nat → String) (toks : List MToken) :
    (markdownToAdfTokens g toks).type = "doc" ∧
    (markdownToAdfTokens g toks).version = 1 ∧
    1 ≤ (markdownToAdfTokens g toks).content.length ∧
    ∃ s : String, markdownToStorageTokens g toks = s := by
  refine ⟨rfl, rfl, ?_, ⟨_, rfl⟩⟩
  simp only [markdownToAdfTokens]
  split
  · rename_i hlen
    omega
  · simp

/-- C6: an input whose block conversion yields zero top-level nodes (such as
the empty token stream the lexer produces for `""`) returns exactly
`{type:"doc", version:1, content:[{type:"paragraph", content:[]}]}`. -/
theorem C6_empty_fallback (g : Nat → String) (toks : List MToken)
    (h : (convertBlockTokens g 0 toks).1 = []) :
    markdownToAdfTokens g toks =
      ⟨"doc", [AdfNode.mk "paragraph" [] (some []) none none], 1⟩ := by
  simp [markdownToAdfTokens, h, emptyParagraph]

theorem C6_empty_fallback_witness :
    (convertBlockTokens gW 0 ([] : List MToken)).1 = [] ∧
    markdownToAdfTokens gW [] =
      ⟨"doc", [AdfNode.mk "paragraph" [] (some []) none none], 1⟩ := by
  have h : (convertBlockTokens gW 0 ([] : List MToken)).1 = [] := by
    simp [convertBlockTokens]
  exact ⟨h, C6_empty_fallback gW [] h⟩

theorem filterMap_imageFields_length (toks : List MToken) :
    (toks.filterMap imageFields).length = (toks.filter isImage).length := by
  induction toks with
  | nil => rfl
  | cons t rest ih =>
    cases t <;> simp [imageFields, isImage, List.filterMap_cons, List.filter_cons, ih]

/-- C7: a paragraph whose inline tokens (ignoring whitespace-only text runs)
are nonempty and all images converts to exactly one `mediaSingle` node
(`attrs.layout = "center"`) per image — never a paragraph wrapper — each
wrapping a single external `media` node whose `url` is the image href and
whose `alt` is present exactly when the alt text is nonempty. -/
theorem C7_image_only_paragraph (toks : List MToken)
    (h : isImageOnlyParagraph toks = true) :
    convertParagraphNodes toks =
      (toks.filterMap imageFields).map (fun p =>
        AdfNode.mk "mediaSingle" [("layout", AVal.str "center")]
          (some [AdfNode.mk "media"
            ([("type", AVal.str "external"), ("url", AVal.str p.1)] ++
              (if p.2.isEmpty then [] else [("alt", AVal.str p.2)]))
            none none none]) none none) ∧
    (convertParagraphNodes toks).length = (toks.filter isImage).length ∧
    ∀ nd ∈ convertParagraphNodes toks, AdfNode.type nd = "mediaSingle" := by
  have he : convertParagraphNodes toks =
      (toks.filterMap imageFields).map (fun p => convertImageToMediaSingle p.1 p.2) := by
    simp [convertParagraphNodes, h]
  refine ⟨?_, ?_, ?_⟩
  · rw [he]
    rfl
  · rw [he, List.length_map]
    exact filterMap_imageFields_length toks
  · rw [he]
    intro nd hnd
    simp only [List.mem_map] at hnd
    obtain ⟨p, -, rfl⟩ := hnd
    rfl

theorem C7_image_only_paragraph_witness :
    isImageOnlyParagraph [MToken.image "https://img/u.png" none "alt text"] = true ∧
    (convertParagraphNodes [MToken.image "https://img/u.png" none "alt text"]).length = 1 := by
  have h : isImageOnlyParagraph [MToken.image "https://img/u.png" none "alt text"] = true := by
    decide
  refine ⟨h, ?_⟩
  rw [(C7_image_only_paragraph _ h).2.1]
  decide

/-- C8: every `listItem` node in every document returned by `markdownToAdf`
has a present, nonempty `content` (an item converting to nothing receives
one empty paragraph). -/
theorem C8_listItem_nonempty (g : Nat → String) (toks : List MToken) :
    docCheck listItemOkB (fun _ => true) (markdownToAdfTokens g toks) = true := by
  obtain ⟨hwf, -⟩ := markdownToAdfTokens_wf g toks
  refine docCheck_mono ?_ (fun l _ => rfl) hwf
  intro nd h
  simp only [wfP, Bool.and_eq_true] at h
  exact h.2

set_option maxRecDepth 8000 in
/-- C2 (counterexample): on a document consisting of one mermaid fenced
block, the storage renderer emits exactly one ordinary code structured-macro
and the fixed mermaid extension key occurs nowhere in the output — no
auxiliary extension macro is synthesized. -/
theorem C2_storage_mermaid_counterexample :
    markdownToStorageTokens gW [MToken.code "graph TD;" (some "mermaid")] =
      "<ac:structured-macro ac:name=\"code\"><ac:parameter ac:name=\"language\">mermaid</ac:parameter><ac:plain-text-body><![CDATA[graph TD;]]></ac:plain-text-body></ac:structured-macro>\n" ∧
    containsSub MERMAID_EXTENSION_KEY.data
      (markdownToStorageTokens gW [MToken.code "graph TD;" (some "mermaid")]).data
      = false := by
  have h1 : markdownToStorageTokens gW [MToken.code "graph TD;" (some "mermaid")] =
      storageCode "graph TD;" (some "mermaid") := by
    simp [markdownToStorageTokens, storageBlocks, storageBlockTok]
  rw [h1]
  constructor
  · decide
  · decide

/-- C2 (amended): only the ADF renderer synthesizes the auxiliary mermaid
extension node.  `markdownToStorageFormat` renders a mermaid fenced block as
a single ordinary code structured-macro with language parameter `"mermaid"`
and no extension macro, while `markdownToAdf`'s code-block conversion emits
the code block followed by the extension node carrying the fixed key and a
fresh identifier. -/
theorem C2_storage_mermaid_amended :
    (∀ (g : Nat → String) (text : String),
      markdownToStorageTokens g [MToken.code text (some "mermaid")] =
        storageCode text (some "mermaid")) ∧
    (∀ (g : Nat → String) (n : Nat) (text : String),
      convertCodeBlock g n text (some "mermaid") =
        ([AdfNode.mk "codeBlock" [("language", AVal.str "mermaid")]
            (some [AdfNode.mk "text" [] none (some text) none]) none none,
          buildMermaidExtensionNode g n], n + 1)) := by
  constructor
  · intro g text
    simp [markdownToStorageTokens, storageBlocks, storageBlockTok]
  · intro g n text
    simp +decide [convertCodeBlock, strTruthy]

/-- C3: `escapeCdata` splits every CDATA terminator so that parsing the
wrapped body back as a greedy chain of CDATA sections recovers the original
text exactly (no `]]>` of the code text ends a section early, and the
surrounding text is preserved), and each occurrence is replaced by the
literal `]]]]><![CDATA[>`. -/
theorem C3_cdata_escaping :
    (∀ s : String,
      unescCdata ((escapeCdata s).data ++ (']' :: ']' :: '>' :: [])) = some s.data) ∧
    escapeCdata "foo ]]> bar" = "foo ]]]]><![CDATA[> bar" ∧
    escapeCdata "]]>" = "]]]]><![CDATA[>" := by
  refine ⟨fun s => ?_, by decide, by decide⟩
  show unescCdata (escCdata s.data ++ _) = some s.data
  exact escCdata_roundtrip s.data

/-- C4: a relative href `d ++ nm ++ ".md" ++ frag` (directory prefix empty
or slash-terminated and free of `#`/`:`; file name free of `/`, `#`, `:`;
optional `#fragment`; not protocol-relative) renders as the `ac:link`
cross-document macro whose `ri:page` content-title is the file name with
fragment, directories and extension stripped, with an `ac:title` attribute
exactly when the link has a (truthy) title, wrapping the rendered inline
body; an absolute URL with a real host such as `https://example.com` falls
through to the plain anchor renderer. -/
theorem C4_md_link_rewriting :
    (∀ (d nm frag : String) (title : Option String) (body : String),
      '#' ∉ d.data → ':' ∉ d.data →
      '#' ∉ nm.data → '/' ∉ nm.data → ':' ∉ nm.data →
      (d.data = [] ∨ ∃ dp, d.data = dp ++ ['/']) →
      (frag = "" ∨ ∃ f : String, frag = "#" ++ f ∧
        ∀ c ∈ f.data, ¬ (isLineTerm c = true)) →
      (∀ rest, (d ++ nm ++ ".md" ++ frag).data ≠ '/' :: '/' :: rest) →
      mdHrefToPageTitle (d ++ nm ++ ".md" ++ frag) = nm ∧
      storageLink (d ++ nm ++ ".md" ++ frag) title body =
        some ("<ac:link" ++
          (if strTruthy title then " ac:title=\"" ++ escapeXml (title.getD "") ++ "\""
           else "") ++ ">" ++
          "<ri:page ri:content-title=\"" ++ escapeXml nm ++ "\" />" ++
          "<ac:link-body>" ++ body ++ "</ac:link-body>" ++ "</ac:link>")) ∧
    (∀ (title : Option String) (body : String),
      urlRealHost "https://example.com" = true ∧
      storageLink "https://example.com" title body = none) := by
  constructor
  · intro d nm frag title body hd1 hd2 hn1 hn2 hn3 hdl hfr hns
    obtain ⟨hlink, htitle⟩ :=
      isMarkdownFileLink_relative d nm frag hd1 hd2 hn1 hn2 hn3 hdl hfr hns
    refine ⟨htitle, ?_⟩
    rw [storageLink_some title body hlink (composed_ne_empty d nm frag), htitle]
  · intro title body
    refine ⟨by decide, ?_⟩
    have hc : (!("https://example.com" : String).isEmpty &&
        isMarkdownFileLink "https://example.com") = false := by decide
    simp [storageLink, hc]

theorem C4_md_link_rewriting_witness :
    mdHrefToPageTitle "docs/sample-short.md#section" = "sample-short" ∧
    storageLink "docs/sample-short.md#section" none "Season Highlights" =
      some "<ac:link><ri:page ri:content-title=\"sample-short\" /><ac:link-body>Season Highlights</ac:link-body></ac:link>" ∧
    urlRealHost "https://example.com" = true ∧
    storageLink "https://example.com" none "text" = none := by
  obtain ⟨h1, h2⟩ := C4_md_link_rewriting
  have he : ("docs/" ++ "sample-short" ++ ".md" ++ "#section" : String)
      = "docs/sample-short.md#section" := by decide
  have ha := h1 "docs/" "sample-short" "#section" none "Season Highlights"
    (by decide) (by decide) (by decide) (by decide) (by decide)
    (Or.inr ⟨"docs".data, by decide⟩)
    (Or.inr ⟨"section", by decide, by decide⟩)
    (fun rest hr => by
      rw [he] at hr
      have hh : ("docs/sample-short.md#section" : String).data.head? = some 'd' := by
        decide
      rw [hr] at hh
      simp at hh)
  rw [he] at ha
  have hb := h2 none "text"
  refine ⟨ha.1, ?_, hb.1, hb.2⟩
  rw [ha.2]
  decide

/-- C9: the XML attribute escaper maps `&`→`&amp;` (applied first, so the
ampersands of the other four replacements are never re-escaped), `<`→`&lt;`,
`>`→`&gt;`, `"`→`&quot;`, `'`→`&apos;`, and is the identity on every string
containing none of the five reserved characters. -/
theorem C9_escapeXml_spec :
    (∀ s : String,
      (∀ c ∈ s.data, c ≠ '&' ∧ c ≠ '<' ∧ c ≠ '>' ∧ c ≠ '"' ∧ c ≠ apos) →
      escapeXml s = s) ∧
    escapeXml "&" = "&amp;" ∧ escapeXml "<" = "&lt;" ∧ escapeXml ">" = "&gt;" ∧
    escapeXml "\"" = "&quot;" ∧ escapeXml "'" = "&apos;" := by
  refine ⟨fun s h => escapeXml_id h, ?_, ?_, ?_, ?_, ?_⟩ <;> decide

theorem C9_escapeXml_spec_witness :
    (∀ c ∈ ("hello world" : String).data,
      c ≠ '&' ∧ c ≠ '<' ∧ c ≠ '>' ∧ c ≠ '"' ∧ c ≠ apos) ∧
    escapeXml "hello world" = "hello world" :=
  ⟨by decide, C9_escapeXml_spec.1 "hello world" (by decide)⟩

/-- C10: the storage renderer is deterministic — its output is independent
of the process-wide random identifier generator (it performs no random
identifier generation, also for mermaid code blocks), while the ADF
renderer's output does depend on the generator. -/
theorem C10_storage_deterministic :
    (∀ (g₁ g₂ : Nat → String) (toks : List MToken),
      markdownToStorageTokens g₁ toks = markdownToStorageTokens g₂ toks) ∧
    markdownToAdfTokens (fun _ => "a") [MToken.code "x" (some "mermaid")] ≠
      markdownToAdfTokens (fun _ => "b") [MToken.code "x" (some "mermaid")] := by
  refine ⟨fun g₁ g₂ toks => rfl, ?_⟩
  intro h
  have h1 : extIdsDoc (markdownToAdfTokens (fun _ => "a")
      [MToken.code "x" (some "mermaid")]) = ["a"] := by
    simp [markdownToAdfTokens, convertBlockTokens, convertBlockToken, convertCodeBlock,
      buildMermaidExtensionNode, extIdsDoc, extIdsList, extIdsNode, lookupA, strTruthy]
  have h2 : extIdsDoc (markdownToAdfTokens (fun _ => "b")
      [MToken.code "x" (some "mermaid")]) = ["b"] := by
    simp [markdownToAdfTokens, convertBlockTokens, convertBlockToken, convertCodeBlock,
      buildMermaidExtensionNode, extIdsDoc, extIdsList, extIdsNode, lookupA, strTruthy]
  rw [h, h2] at h1
  exact absurd h1 (by decide)

end ConfluenceMcp
